import Mathlib

/-!
# Verification of `entity_event/context_loader.py`

A shallow embedding of the context-loading module of django-entity-event.
Python dictionaries are modelled as association lists that keep insertion
order (as Python dicts do); Python sets are modelled as lists read up to
membership; the mutable hydration pass is modelled as a pure tree
transformer; the one runtime failure the module can produce on its own —
`dict.get` applied to an unhashable key (a list or dict) — is modelled by
`Option`, with `none` standing for the raised `TypeError`.
-/

namespace ContextLoader

/-- A Django model is identified by the `(app_name, model_name)` pair passed
to `get_model`. -/
abbrev Model := String × String

/-- A fetched model instance: opaque except for the model it belongs to and
its own `id` (the only contract `id_dict` relies on). -/
structure Record where
  app : String
  mdl : String
  id : Int
  deriving DecidableEq, Repr

/-- A value of an event's context tree: JSON-like scalars, lists and
string-keyed dictionaries, plus `null` (Python `None`) and fetched model
instances (which hydration writes back into the tree). -/
inductive Value where
  | int (n : Int)
  | str (s : String)
  | bool (b : Bool)
  | null
  | record (app mdl : String) (id : Int)
  | list (xs : List Value)
  | map (entries : List (String × Value))
  deriving Repr

/-- The tree value standing for a fetched record. -/
def Record.toValue (r : Record) : Value :=
  Value.record r.app r.mdl r.id

/-- An event: a source tag and a context tree (`event.source`,
`event.context`). -/
structure Event where
  source : String
  context : Value
  deriving Repr

/-- A medium: only its render group matters to `load_contexts`. -/
structure Medium where
  render_group : String
  deriving DecidableEq, Repr

/-- One renderer's hints for one context key: the dictionary
`{'app_name': .., 'model_name': .., 'select_related': .., 'prefetch_related': ..}`
(the two related lists default to `[]` under `hints.get(_, [])`). -/
structure HintSpec where
  app_name : String
  model_name : String
  select_related : List String
  prefetch_related : List String
  deriving DecidableEq, Repr

/-- A `ContextRenderer` row: its source, its render group and its
`context_hints` dictionary. -/
structure ContextRenderer where
  source : String
  render_group : String
  context_hints : List (String × HintSpec)
  deriving DecidableEq, Repr

/-- A merged per-(source, key) hint entry, as built by
`get_context_hints_per_source`: the defaultdict default has both names
`None` (hence `Option`), and the related sets start empty. -/
structure Hints where
  app_name : Option String
  model_name : Option String
  select_related : List String
  prefetch_related : List String
  deriving DecidableEq, Repr

/-- The defaultdict default for a merged hint entry. -/
def emptyHints : Hints :=
  { app_name := none, model_name := none
    select_related := [], prefetch_related := [] }

/-- `get_model(hints['app_name'], hints['model_name'])` on a merged entry
(the two names are always assigned before any read). -/
def modelOf (h : Hints) : Model :=
  (h.app_name.getD "", h.model_name.getD "")

/-- A queryset as this module builds it: the base manager of a model plus
the accumulated `select_related` and `prefetch_related` arguments. -/
structure QuerySet where
  select_related : List String
  prefetch_related : List String
  deriving DecidableEq, Repr

/-! ## Python dictionaries as ordered association lists -/

section Assoc

variable {α : Type} {β : Type} {δ : Type} [DecidableEq α]

/-- `d.get(a)` on a Python dict (first — i.e. only — binding wins). -/
def lookupA : List (α × β) → α → Option β
  | [], _ => none
  | (k, v) :: xs, a => if k = a then some v else lookupA xs a

/-- `d[a] = f(d[a])` on a `defaultdict`: an existing binding is updated in
place (keeping its position), a missing one is appended, starting from the
default — exactly Python's insertion-order behaviour. -/
def updateA (xs : List (α × β)) (a : α) (dflt : β) (f : β → β) : List (α × β) :=
  match xs with
  | [] => [(a, f dflt)]
  | (k, v) :: rest =>
      if k = a then (k, f v) :: rest else (k, v) :: updateA rest a dflt f

/-- A sequence of defaultdict updates `d[u.1] = combine d[u.1] u.2`. -/
def applyU (combine : β → δ → β) (dflt : β) (acc : List (α × β))
    (us : List (α × δ)) : List (α × β) :=
  us.foldl (fun acc u => updateA acc u.1 dflt (fun b => combine b u.2)) acc

/-- The payloads of the updates aimed at key `a`, in order. -/
def relevantVals (a : α) (us : List (α × δ)) : List δ :=
  (us.filter (fun u => u.1 = a)).map (fun u => u.2)

theorem lookupA_updateA (xs : List (α × β)) (a b : α) (dflt : β) (f : β → β) :
    lookupA (updateA xs a dflt f) b =
      if b = a then some (f ((lookupA xs a).getD dflt)) else lookupA xs b := by
  induction xs with
  | nil =>
      by_cases hba : b = a
      · subst hba; simp [updateA, lookupA]
      · have hab : ¬ a = b := fun h => hba h.symm
        simp [updateA, lookupA, hba, hab]
  | cons kv rest ih =>
      obtain ⟨k, v⟩ := kv
      by_cases hka : k = a
      · subst hka
        by_cases hbk : b = k
        · subst hbk; simp [updateA, lookupA]
        · have hkb : ¬ k = b := fun h => hbk h.symm
          simp [updateA, lookupA, hbk, hkb]
      · by_cases hkb : k = b
        · have hba : ¬ b = a := fun h => hka (hkb.trans h)
          simp [updateA, lookupA, hka, hkb, hba]
        · simp [updateA, lookupA, hka, hkb, ih]

theorem lookupA_applyU (combine : β → δ → β) (dflt : β)
    (us : List (α × δ)) (acc : List (α × β)) (a : α) :
    lookupA (applyU combine dflt acc us) a =
      us.foldl (fun ob u =>
        if u.1 = a then some (combine (ob.getD dflt) u.2) else ob)
        (lookupA acc a) := by
  induction us generalizing acc with
  | nil => simp [applyU]
  | cons u rest ih =>
      have step : applyU combine dflt acc (u :: rest) =
          applyU combine dflt (updateA acc u.1 dflt (fun b => combine b u.2)) rest := rfl
      rw [step, ih, List.foldl_cons]
      congr 1
      rw [lookupA_updateA]
      by_cases h : u.1 = a
      · subst h; simp
      · have h2 : ¬ a = u.1 := fun hh => h hh.symm
        rw [if_neg h2, if_neg h]

/-- Folding the per-key update chain: the final entry for `a` folds
`combine` over the payloads aimed at `a`, starting from the default (or
from the previous entry when there was one). -/
theorem foldl_update_chain (combine : β → δ → β) (dflt : β) (a : α)
    (us : List (α × δ)) (ob : Option β) :
    us.foldl (fun ob u =>
        if u.1 = a then some (combine (ob.getD dflt) u.2) else ob) ob =
      match relevantVals a us with
      | [] => ob
      | vs => some (vs.foldl combine (ob.getD dflt)) := by
  induction us generalizing ob with
  | nil => simp [relevantVals]
  | cons u rest ih =>
      by_cases h : u.1 = a
      · simp only [List.foldl_cons, if_pos h]
        rw [ih]
        have hrel : relevantVals a (u :: rest) = u.2 :: relevantVals a rest := by
          simp [relevantVals, List.filter_cons, h]
        rw [hrel]
        cases hr : relevantVals a rest with
        | nil => simp
        | cons v vs => simp
      · simp only [List.foldl_cons, if_neg h]
        rw [ih]
        have hrel : relevantVals a (u :: rest) = relevantVals a rest := by
          simp [relevantVals, List.filter_cons, h]
        rw [hrel]

/-- The closed form: looking up `a` after replaying all updates over an
empty dict gives the fold over the updates aimed at `a`, or nothing. -/
theorem lookupA_applyU_nil (combine : β → δ → β) (dflt : β)
    (us : List (α × δ)) (a : α) :
    lookupA (applyU combine dflt [] us) a =
      match relevantVals a us with
      | [] => none
      | vs => some (vs.foldl combine dflt) := by
  rw [lookupA_applyU, show lookupA ([] : List (α × β)) a = none from rfl,
    foldl_update_chain]
  cases relevantVals a us <;> simp

theorem applyU_append (combine : β → δ → β) (dflt : β) (acc : List (α × β))
    (us vs : List (α × δ)) :
    applyU combine dflt acc (us ++ vs) =
      applyU combine dflt (applyU combine dflt acc us) vs := by
  simp [applyU, List.foldl_append]

/-- Keys of an updated dict: an existing key keeps the key list unchanged,
a new one is appended at the end — Python's insertion-order behaviour. -/
theorem keys_updateA (xs : List (α × β)) (a : α) (dflt : β) (f : β → β) :
    (updateA xs a dflt f).map Prod.fst =
      if a ∈ xs.map Prod.fst then xs.map Prod.fst
      else xs.map Prod.fst ++ [a] := by
  induction xs with
  | nil => simp [updateA]
  | cons kv rest ih =>
      obtain ⟨k, v⟩ := kv
      by_cases hka : k = a
      · subst hka
        simp [updateA]
      · have hak : ¬ a = k := fun h => hka h.symm
        simp only [updateA, if_neg hka, List.map_cons, ih, List.mem_cons, hak,
          false_or]
        by_cases h : a ∈ rest.map Prod.fst <;> simp [h]

/-- An update never deletes and never duplicates a key, so `Nodup` of the
key list is preserved. -/
theorem nodupKeys_updateA (xs : List (α × β)) (a : α) (dflt : β) (f : β → β)
    (h : (xs.map Prod.fst).Nodup) :
    ((updateA xs a dflt f).map Prod.fst).Nodup := by
  rw [keys_updateA]
  by_cases hmem : a ∈ xs.map Prod.fst
  · simpa [hmem] using h
  · rw [if_neg hmem]
    exact List.Nodup.append h (List.nodup_singleton a) (by simpa using hmem)

theorem nodupKeys_applyU (combine : β → δ → β) (dflt : β)
    (us : List (α × δ)) (acc : List (α × β))
    (h : (acc.map Prod.fst).Nodup) :
    ((applyU combine dflt acc us).map Prod.fst).Nodup := by
  induction us generalizing acc with
  | nil => simpa [applyU] using h
  | cons u rest ih =>
      have step : applyU combine dflt acc (u :: rest) =
          applyU combine dflt (updateA acc u.1 dflt (fun b => combine b u.2)) rest := rfl
      rw [step]
      exact ih _ (nodupKeys_updateA _ _ _ _ h)

end Assoc

/-! ## `dict_find`: the reference scanner -/

mutual

/-- `dict_find(d, which_key)`: a list or tuple is traversed element by
element; a dictionary yields `(d, v)` for each entry `(k, v)` with
`k == which_key` and then recurses into `v` regardless of the match; other
values yield nothing. The generator's yields are collected in order. -/
def dict_find : Value → String → List (Value × Value)
  | Value.list xs, key => dict_findList xs key
  | Value.map xs, key => dict_findEntries (Value.map xs) xs key
  | _, _ => []

/-- `for i in d: for result in dict_find(i, which_key): yield result` -/
def dict_findList : List Value → String → List (Value × Value)
  | [], _ => []
  | x :: xs, key => dict_find x key ++ dict_findList xs key

/-- `for k, v in d.items(): if k == which_key: yield d, v; ...recurse` —
`d` is the enclosing dictionary being iterated. -/
def dict_findEntries : Value → List (String × Value) → String → List (Value × Value)
  | _, [], _ => []
  | d, (k, v) :: xs, key =>
      (if k = key then [(d, v)] else []) ++ dict_find v key ++ dict_findEntries d xs key

end

/-! Spec-side enumeration of occurrences: every node of the tree, and the
matching entries of each dictionary node. -/

mutual

/-- Every node of the tree (the tree itself and, recursively, all list
elements and all dictionary entry values), in depth-first order. -/
def subtrees : Value → List Value
  | Value.list xs => Value.list xs :: subtreesList xs
  | Value.map xs => Value.map xs :: subtreesEntries xs
  | v => [v]

def subtreesList : List Value → List Value
  | [] => []
  | x :: xs => subtrees x ++ subtreesList xs

def subtreesEntries : List (String × Value) → List Value
  | [] => []
  | kv :: xs => subtrees kv.2 ++ subtreesEntries xs

end

/-- The occurrences of `key` contributed by a single node: one pair
`(enclosing map, value)` per entry of a dictionary node whose key equals
`key`; nothing for any other node. -/
def matchesOf (t : Value) (key : String) : List (Value × Value) :=
  match t with
  | Value.map xs =>
      xs.filterMap (fun kv => if kv.1 = key then some (Value.map xs, kv.2) else none)
  | _ => []

/-- `matchesOf` over a fixed enclosing map, for induction over its suffix
of entries. -/
def matchesOfAux (d : Value) (xs : List (String × Value)) (key : String) :
    List (Value × Value) :=
  xs.filterMap (fun kv => if kv.1 = key then some (d, kv.2) else none)

theorem matchesOf_eq_aux (xs : List (String × Value)) (key : String) :
    matchesOf (Value.map xs) key = matchesOfAux (Value.map xs) xs key := rfl

theorem dict_find_list_def (xs : List Value) (key : String) :
    dict_find (Value.list xs) key = dict_findList xs key := by
  simp [dict_find]

theorem dict_find_map_def (xs : List (String × Value)) (key : String) :
    dict_find (Value.map xs) key = dict_findEntries (Value.map xs) xs key := by
  simp [dict_find]

theorem subtrees_list_def (xs : List Value) :
    subtrees (Value.list xs) = Value.list xs :: subtreesList xs := by
  simp [subtrees]

theorem subtrees_map_def (xs : List (String × Value)) :
    subtrees (Value.map xs) = Value.map xs :: subtreesEntries xs := by
  simp [subtrees]

mutual

theorem dict_find_perm (d : Value) (key : String) :
    (dict_find d key).Perm ((subtrees d).flatMap (fun t => matchesOf t key)) := by
  match d with
  | Value.list xs =>
      rw [dict_find_list_def, subtrees_list_def, List.flatMap_cons]
      have : matchesOf (Value.list xs) key = [] := rfl
      rw [this, List.nil_append]
      exact dict_findList_perm xs key
  | Value.map xs =>
      rw [dict_find_map_def, subtrees_map_def, List.flatMap_cons, matchesOf_eq_aux]
      exact dict_findEntries_perm (Value.map xs) xs key
  | Value.int n => simp [dict_find, subtrees, matchesOf]
  | Value.str s => simp [dict_find, subtrees, matchesOf]
  | Value.bool b => simp [dict_find, subtrees, matchesOf]
  | Value.null => simp [dict_find, subtrees, matchesOf]
  | Value.record a m i => simp [dict_find, subtrees, matchesOf]

theorem dict_findList_perm (xs : List Value) (key : String) :
    (dict_findList xs key).Perm ((subtreesList xs).flatMap (fun t => matchesOf t key)) := by
  match xs with
  | [] => simp [dict_findList, subtreesList]
  | x :: xs =>
      rw [show dict_findList (x :: xs) key = dict_find x key ++ dict_findList xs key from rfl,
        show subtreesList (x :: xs) = subtrees x ++ subtreesList xs from rfl,
        List.flatMap_append]
      exact (dict_find_perm x key).append (dict_findList_perm xs key)

theorem dict_findEntries_perm (d : Value) (xs : List (String × Value)) (key : String) :
    (dict_findEntries d xs key).Perm
      (matchesOfAux d xs key ++ (subtreesEntries xs).flatMap (fun t => matchesOf t key)) := by
  match xs with
  | [] => simp [dict_findEntries, matchesOfAux, subtreesEntries]
  | (k, v) :: xs =>
      rw [show dict_findEntries d ((k, v) :: xs) key =
            (if k = key then [(d, v)] else []) ++ dict_find v key ++
              dict_findEntries d xs key from rfl,
        show subtreesEntries ((k, v) :: xs) = subtrees v ++ subtreesEntries xs from rfl,
        List.flatMap_append]
      have hv := dict_find_perm v key
      have hxs := dict_findEntries_perm d xs key
      have hhead :
          matchesOfAux d ((k, v) :: xs) key =
            (if k = key then [(d, v)] else []) ++ matchesOfAux d xs key := by
        by_cases hk : k = key <;> simp [matchesOfAux, List.filterMap_cons, hk]
      rw [hhead, List.append_assoc, List.append_assoc]
      apply List.Perm.append_left
      refine (hv.append hxs).trans ?_
      rw [← List.append_assoc, ← List.append_assoc]
      exact List.Perm.append_right _ List.perm_append_comm

end

/-! ## `dict_find` as an explicit state-passing traversal

The Python function is a generator walking a mutable tree. Its
state-passing embedding returns, together with the yielded pairs, the tree
as it stands after the traversal (rebuilt node by node from what the
traversal visited). -/

mutual

def dict_findT : Value → String → List (Value × Value) × Value
  | Value.list xs, key =>
      let r := dict_findTList xs key
      (r.1, Value.list r.2)
  | Value.map xs, key =>
      let r := dict_findTEntries (Value.map xs) xs key
      (r.1, Value.map r.2)
  | v, _ => ([], v)

def dict_findTList : List Value → String → List (Value × Value) × List Value
  | [], _ => ([], [])
  | x :: xs, key =>
      let r := dict_findT x key
      let rs := dict_findTList xs key
      (r.1 ++ rs.1, r.2 :: rs.2)

def dict_findTEntries : Value → List (String × Value) → String →
    List (Value × Value) × List (String × Value)
  | _, [], _ => ([], [])
  | d, (k, v) :: xs, key =>
      let r := dict_findT v key
      let rs := dict_findTEntries d xs key
      ((if k = key then [(d, v)] else []) ++ r.1 ++ rs.1, (k, r.2) :: rs.2)

end

mutual

theorem dict_findT_pure (d : Value) (key : String) :
    dict_findT d key = (dict_find d key, d) := by
  match d with
  | Value.list xs =>
      rw [show dict_findT (Value.list xs) key =
            ((dict_findTList xs key).1, Value.list (dict_findTList xs key).2) from rfl,
        dict_find_list_def, dict_findTList_pure xs key]
  | Value.map xs =>
      rw [show dict_findT (Value.map xs) key =
            ((dict_findTEntries (Value.map xs) xs key).1,
              Value.map (dict_findTEntries (Value.map xs) xs key).2) from rfl,
        dict_find_map_def, dict_findTEntries_pure (Value.map xs) xs key]
  | Value.int n => rfl
  | Value.str s => rfl
  | Value.bool b => rfl
  | Value.null => rfl
  | Value.record a m i => rfl

theorem dict_findTList_pure (xs : List Value) (key : String) :
    dict_findTList xs key = (dict_findList xs key, xs) := by
  match xs with
  | [] => rfl
  | x :: xs =>
      rw [show dict_findTList (x :: xs) key =
            ((dict_findT x key).1 ++ (dict_findTList xs key).1,
              (dict_findT x key).2 :: (dict_findTList xs key).2) from rfl,
        dict_findT_pure x key, dict_findTList_pure xs key,
        show dict_findList (x :: xs) key = dict_find x key ++ dict_findList xs key from rfl]

theorem dict_findTEntries_pure (d : Value) (xs : List (String × Value)) (key : String) :
    dict_findTEntries d xs key = (dict_findEntries d xs key, xs) := by
  match xs with
  | [] => rfl
  | (k, v) :: xs =>
      rw [show dict_findTEntries d ((k, v) :: xs) key =
            ((if k = key then [(d, v)] else []) ++ (dict_findT v key).1 ++
              (dict_findTEntries d xs key).1,
              (k, (dict_findT v key).2) :: (dict_findTEntries d xs key).2) from rfl,
        dict_findT_pure v key, dict_findTEntries_pure d xs key,
        show dict_findEntries d ((k, v) :: xs) key =
          (if k = key then [(d, v)] else []) ++ dict_find v key ++
            dict_findEntries d xs key from rfl]

end

/-! ## `get_context_hints_per_source`: the hint aggregator -/

/-- One renderer's contribution for one context key: overwrite the names,
union (append) the related sets into the merged entry. -/
def applyHint (h : Hints) (spec : HintSpec) : Hints :=
  { app_name := some spec.app_name
    model_name := some spec.model_name
    select_related := h.select_related ++ spec.select_related
    prefetch_related := h.prefetch_related ++ spec.prefetch_related }

/-- `get_context_hints_per_source(context_renderers)`: a defaultdict of
defaultdicts; for each renderer, for each `(key, hints)` of its
`context_hints`, update `context_hints_per_source[cr.source][key]`. -/
def get_context_hints_per_source (crs : List ContextRenderer) :
    List (String × List (String × Hints)) :=
  crs.foldl
    (fun acc cr =>
      cr.context_hints.foldl
        (fun acc kh =>
          updateA acc cr.source []
            (fun inner => updateA inner kh.1 emptyHints (fun h => applyHint h kh.2)))
        acc)
    []

/-- Spec-side enumeration: the hint specs contributed to `(src, key)`, in
processing order — from every declaration whose source is `src`, the specs
it declares under `key`. -/
def contributions (crs : List ContextRenderer) (src key : String) : List HintSpec :=
  (crs.filter (fun cr => cr.source = src)).flatMap
    (fun cr => (cr.context_hints.filter (fun kh => kh.1 = key)).map (fun kh => kh.2))

/-- Spec-side merged entry: none when nobody contributes; otherwise the
type names of the last contribution and the unions (concatenations) of all
contributed eager-load sets. -/
def mergeContribs (specs : List HintSpec) : Option Hints :=
  specs.getLast?.map (fun last =>
    { app_name := some last.app_name
      model_name := some last.model_name
      select_related := specs.flatMap (fun s => s.select_related)
      prefetch_related := specs.flatMap (fun s => s.prefetch_related) })

/-- Looking up source then key in the merged structure
(`context_hints_per_source.get(source, {})` then the key). -/
def lookup2 (chps : List (String × List (String × Hints))) (src key : String) :
    Option Hints :=
  lookupA ((lookupA chps src).getD []) key

/-- The merge as a flat update sequence keyed by source. -/
theorem get_context_hints_as_applyU (crs : List ContextRenderer) :
    get_context_hints_per_source crs =
      applyU
        (fun inner (kh : String × HintSpec) =>
          updateA inner kh.1 emptyHints (fun h => applyHint h kh.2))
        [] []
        (crs.flatMap (fun cr => cr.context_hints.map (fun kh => (cr.source, kh)))) := by
  rw [get_context_hints_per_source]
  generalize hacc : ([] : List (String × List (String × Hints))) = acc
  clear hacc
  induction crs generalizing acc with
  | nil => simp [applyU]
  | cons cr rest ih =>
      rw [List.foldl_cons, List.flatMap_cons, applyU_append, ih]
      congr 1
      rw [applyU]
      rw [List.foldl_map]

/-- Folding contributions into an entry: the names are the last
contribution's, the related lists accumulate left to right. -/
theorem foldl_applyHint (specs : List HintSpec) (h0 : Hints) (last : HintSpec)
    (hlast : specs.getLast? = some last) :
    specs.foldl applyHint h0 =
      { app_name := some last.app_name
        model_name := some last.model_name
        select_related := h0.select_related ++ specs.flatMap (fun s => s.select_related)
        prefetch_related :=
          h0.prefetch_related ++ specs.flatMap (fun s => s.prefetch_related) } := by
  induction specs generalizing h0 with
  | nil => simp at hlast
  | cons s rest ih =>
      rw [List.foldl_cons]
      cases hr : rest with
      | nil =>
          subst hr
          have hs : s = last := by simpa using hlast
          subst hs
          simp [applyHint]
      | cons s2 rest2 =>
          subst hr
          have hlast2 : (s2 :: rest2).getLast? = some last := by
            rwa [List.getLast?_cons_cons] at hlast
          rw [ih _ hlast2]
          simp [applyHint]

/-- The `(key, spec)` pairs the renderers with source `src` contribute, in
processing order. -/
def khsOf (crs : List ContextRenderer) (src : String) : List (String × HintSpec) :=
  crs.flatMap (fun cr => if cr.source = src then cr.context_hints else [])

theorem relevantVals_renderer_updates (crs : List ContextRenderer) (src : String) :
    relevantVals src
        (crs.flatMap (fun cr => cr.context_hints.map (fun kh => (cr.source, kh)))) =
      khsOf crs src := by
  induction crs with
  | nil => simp [relevantVals, khsOf]
  | cons cr rest ih =>
      rw [List.flatMap_cons, relevantVals, List.filter_append, List.map_append]
      rw [show List.map (fun u => u.2)
            (List.filter (fun u => decide (u.1 = src))
              (rest.flatMap (fun cr => cr.context_hints.map (fun kh => (cr.source, kh)))))
          = relevantVals src
              (rest.flatMap (fun cr => cr.context_hints.map (fun kh => (cr.source, kh))))
          from rfl, ih]
      rw [show khsOf (cr :: rest) src =
        (if cr.source = src then cr.context_hints else []) ++ khsOf rest src from rfl]
      congr 1
      by_cases hs : cr.source = src
      · simp [List.filter_map, Function.comp, hs, List.map_map]
      · simp [List.filter_map, Function.comp, hs]

theorem relevantVals_khsOf (crs : List ContextRenderer) (src key : String) :
    relevantVals key (khsOf crs src) = contributions crs src key := by
  induction crs with
  | nil => simp [relevantVals, khsOf, contributions]
  | cons cr rest ih =>
      rw [show khsOf (cr :: rest) src =
        (if cr.source = src then cr.context_hints else []) ++ khsOf rest src from rfl]
      rw [relevantVals, List.filter_append, List.map_append]
      rw [show List.map (fun u => u.2)
            (List.filter (fun u => decide (u.1 = key)) (khsOf rest src))
          = relevantVals key (khsOf rest src) from rfl, ih]
      by_cases hs : cr.source = src
      · rw [if_pos hs, show contributions (cr :: rest) src key =
            ((cr :: rest).filter (fun cr => cr.source = src)).flatMap
              (fun cr =>
                (cr.context_hints.filter (fun kh => kh.1 = key)).map (fun kh => kh.2))
            from rfl]
        rw [List.filter_cons, if_pos (by simpa using hs), List.flatMap_cons]
        rfl
      · rw [if_neg hs, show contributions (cr :: rest) src key =
            ((cr :: rest).filter (fun cr => cr.source = src)).flatMap
              (fun cr =>
                (cr.context_hints.filter (fun kh => kh.1 = key)).map (fun kh => kh.2))
            from rfl]
        rw [List.filter_cons, if_neg (by simpa using hs)]
        rfl

/-- The merged structure, looked up at `(src, key)`, is exactly the fold of
the contributions aimed at that pair: no entry when nobody contributes,
otherwise the last contribution's type names and the concatenation (union)
of all contributed eager-load sets. -/
theorem outer_getD (us : List (String × (String × HintSpec))) (src : String) :
    (lookupA (applyU (fun inner (kh : String × HintSpec) =>
        updateA inner kh.1 emptyHints (fun h => applyHint h kh.2)) [] [] us) src).getD []
      = applyU applyHint emptyHints [] (relevantVals src us) := by
  rw [lookupA_applyU_nil]
  cases relevantVals src us with
  | nil => rfl
  | cons a l => rfl

theorem lookup2_get_context_hints (crs : List ContextRenderer) (src key : String) :
    lookup2 (get_context_hints_per_source crs) src key =
      mergeContribs (contributions crs src key) := by
  rw [lookup2, get_context_hints_as_applyU, outer_getD,
    relevantVals_renderer_updates, lookupA_applyU_nil, relevantVals_khsOf]
  cases hc : contributions crs src key with
  | nil => rfl
  | cons c cs =>
      have hlast := List.getLast?_eq_getLast (c :: cs) (by simp)
      show some (List.foldl applyHint emptyHints (c :: cs)) = mergeContribs (c :: cs)
      rw [foldl_applyHint _ _ _ hlast]
      rw [show mergeContribs (c :: cs) =
        ((c :: cs).getLast?).map (fun last =>
          { app_name := some last.app_name
            model_name := some last.model_name
            select_related := (c :: cs).flatMap (fun s => s.select_related)
            prefetch_related := (c :: cs).flatMap (fun s => s.prefetch_related) })
        from rfl, hlast]
      simp [emptyHints]

/-! ## `get_querysets_for_context_hints`: the query planner -/

/-- Accumulating one merged hint into a model's queryset: union (append)
its `select_related` and `prefetch_related` arguments. -/
def qsCombine (qs : QuerySet) (h : Hints) : QuerySet :=
  { select_related := qs.select_related ++ h.select_related
    prefetch_related := qs.prefetch_related ++ h.prefetch_related }

/-- `get_querysets_for_context_hints(context_hints_per_source)`: iterate
every hints entry of every source (`.values()` twice), resolve its model,
and give that model one queryset carrying the union of all
`select_related`/`prefetch_related` hints that reference it. The Python
code accumulates the two unions in side defaultdicts and attaches them to
`model.objects` in a second pass; since each model's final queryset is
exactly its manager plus those totals, the accumulation is fused here into
one `updateA` per hints entry. -/
def get_querysets_for_context_hints (chps : List (String × List (String × Hints))) :
    List (Model × QuerySet) :=
  chps.foldl
    (fun acc sh =>
      sh.2.foldl
        (fun acc kh =>
          updateA acc (modelOf kh.2) { select_related := [], prefetch_related := [] }
            (fun qs => qsCombine qs kh.2))
        acc)
    []

/-- Spec-side enumeration: the merged hints (across every source and
context key, in processing order) that reference model `m`. -/
def hintsForModel (chps : List (String × List (String × Hints))) (m : Model) :
    List Hints :=
  ((chps.flatMap (fun sh => sh.2.map (fun kh => kh.2))).filter (fun h => modelOf h = m))

/-- Spec-side query spec: no entry when no hint references the model,
otherwise one spec holding the unions of the eager-load sets of every hint
that references it. -/
def querySpecFor (chps : List (String × List (String × Hints))) (m : Model) :
    Option QuerySet :=
  match hintsForModel chps m with
  | [] => none
  | hs => some
      { select_related := hs.flatMap (fun h => h.select_related)
        prefetch_related := hs.flatMap (fun h => h.prefetch_related) }

theorem get_querysets_as_applyU (chps : List (String × List (String × Hints))) :
    get_querysets_for_context_hints chps =
      applyU qsCombine { select_related := [], prefetch_related := [] } []
        ((chps.flatMap (fun sh => sh.2.map (fun kh => kh.2))).map
          (fun h => (modelOf h, h))) := by
  rw [get_querysets_for_context_hints]
  generalize hacc : ([] : List (Model × QuerySet)) = acc
  clear hacc
  induction chps generalizing acc with
  | nil => simp [applyU]
  | cons sh rest ih =>
      rw [List.foldl_cons, List.flatMap_cons, List.map_append, applyU_append, ih]
      congr 1
      rw [applyU, List.map_map, List.foldl_map]
      rfl

theorem relevantVals_hintsForModel (chps : List (String × List (String × Hints)))
    (m : Model) :
    relevantVals m
        ((chps.flatMap (fun sh => sh.2.map (fun kh => kh.2))).map
          (fun h => (modelOf h, h))) =
      hintsForModel chps m := by
  rw [relevantVals, hintsForModel, List.filter_map, List.map_map]
  have hcomp :
      ((fun (u : Model × Hints) => decide (u.1 = m)) ∘ fun h => (modelOf h, h)) =
        fun h => decide (modelOf h = m) := rfl
  rw [hcomp]
  have hid : ((fun (u : Model × Hints) => u.2) ∘ fun h => (modelOf h, h)) = id := rfl
  rw [hid, List.map_id]

theorem foldl_qsCombine (hs : List Hints) (q0 : QuerySet) :
    hs.foldl qsCombine q0 =
      { select_related := q0.select_related ++ hs.flatMap (fun h => h.select_related)
        prefetch_related :=
          q0.prefetch_related ++ hs.flatMap (fun h => h.prefetch_related) } := by
  induction hs generalizing q0 with
  | nil => simp
  | cons h hs ih => rw [List.foldl_cons, ih]; simp [qsCombine]

/-- The planner's output, looked up at any model, is exactly the spec-side
query spec: one entry per referenced model, unions across every hint that
references it, and nothing for unreferenced models. -/
theorem lookupA_get_querysets (chps : List (String × List (String × Hints)))
    (m : Model) :
    lookupA (get_querysets_for_context_hints chps) m = querySpecFor chps m := by
  rw [get_querysets_as_applyU, lookupA_applyU_nil, relevantVals_hintsForModel,
    querySpecFor]
  cases hintsForModel chps m with
  | nil => rfl
  | cons h hs =>
      show some (List.foldl qsCombine _ (h :: hs)) = _
      rw [foldl_qsCombine]
      rfl

/-- The planner never issues two specs for one model: its keys are nodup. -/
theorem nodupKeys_get_querysets (chps : List (String × List (String × Hints))) :
    ((get_querysets_for_context_hints chps).map Prod.fst).Nodup := by
  rw [get_querysets_as_applyU]
  exact nodupKeys_applyU _ _ _ _ (by simp)

/-! ## `get_model_ids_to_fetch`: the identifier collector -/

/-- `isinstance(v, int)` and the collected identifier: Python `bool` is a
subtype of `int` (`True == 1`, `False == 0`), so booleans pass the filter;
every other scalar and every container fails it. -/
def intLike : Value → Option Int
  | Value.int n => some n
  | Value.bool b => some (if b then 1 else 0)
  | _ => none

/-- `values = value if isinstance(value, list) else [value]`. -/
def wrapList : Value → List Value
  | Value.list xs => xs
  | v => [v]

/-- `(v for v in values if isinstance(v, int))`, as collected identifiers. -/
def idsOfValue (value : Value) : List Int :=
  (wrapList value).filterMap intLike

/-- `get_model_ids_to_fetch(events, context_hints_per_source)`: for each
event, for each `(context_key, hints)` of its source's merged hints
(`.get(event.source, {})`), for each pair yielded by `dict_find`, update
the defaultdict entry of the hinted model with the integer-like elements.
Note the entry is created (empty) even when no element passes the filter,
because `model_ids_to_fetch[model]` is accessed before `.update`. -/
def get_model_ids_to_fetch (events : List Event)
    (chps : List (String × List (String × Hints))) : List (Model × List Int) :=
  events.foldl
    (fun acc event =>
      ((lookupA chps event.source).getD []).foldl
        (fun acc kh =>
          (dict_find event.context kh.1).foldl
            (fun acc dv => updateA acc (modelOf kh.2) [] (fun s => s ++ idsOfValue dv.2))
            acc)
        acc)
    []

/-- The collector's update stream, flattened: one `(model, ids)` update per
scanner match of each hinted key of each event. -/
def collectUpdates (events : List Event)
    (chps : List (String × List (String × Hints))) : List (Model × List Int) :=
  events.flatMap (fun e =>
    ((lookupA chps e.source).getD []).flatMap (fun kh =>
      (dict_find e.context kh.1).map (fun dv => (modelOf kh.2, idsOfValue dv.2))))

/-- Union (append) into a model's identifier set. -/
def idCombine (s ids : List Int) : List Int := s ++ ids

theorem event_foldl_as_applyU (ctx : Value) (khs : List (String × Hints))
    (acc : List (Model × List Int)) :
    khs.foldl
        (fun acc kh =>
          (dict_find ctx kh.1).foldl
            (fun acc dv => updateA acc (modelOf kh.2) [] (fun s => s ++ idsOfValue dv.2))
            acc)
        acc =
      applyU idCombine [] acc
        (khs.flatMap (fun kh =>
          (dict_find ctx kh.1).map (fun dv => (modelOf kh.2, idsOfValue dv.2)))) := by
  induction khs generalizing acc with
  | nil => simp [applyU]
  | cons kh rest ih =>
      rw [List.foldl_cons, List.flatMap_cons, applyU_append, ih]
      congr 1
      rw [applyU, List.foldl_map]
      rfl

theorem get_model_ids_as_applyU (events : List Event)
    (chps : List (String × List (String × Hints))) :
    get_model_ids_to_fetch events chps =
      applyU idCombine [] [] (collectUpdates events chps) := by
  rw [get_model_ids_to_fetch, collectUpdates]
  generalize hacc : ([] : List (Model × List Int)) = acc
  clear hacc
  induction events generalizing acc with
  | nil => simp [applyU]
  | cons e rest ih =>
      rw [List.foldl_cons, List.flatMap_cons, applyU_append, ih, event_foldl_as_applyU]

theorem foldl_idCombine (ls : List (List Int)) (acc : List Int) :
    ls.foldl idCombine acc = acc ++ ls.flatMap id := by
  induction ls generalizing acc with
  | nil => simp
  | cons l ls ih => rw [List.foldl_cons, List.flatMap_cons, ih, idCombine]; simp

/-- The identifier set collected for a model (`.getD []`: both a missing
entry and an empty one read as no identifiers). -/
def collectedIds (events : List Event)
    (chps : List (String × List (String × Hints))) (m : Model) : List Int :=
  (lookupA (get_model_ids_to_fetch events chps) m).getD []

/-- Membership characterization of the collected identifiers: exactly the
integer-like elements found at the scanner's matches of hinted keys, over
events whose source has merged hints. -/
theorem mem_collectedIds (events : List Event)
    (chps : List (String × List (String × Hints))) (m : Model) (n : Int) :
    n ∈ collectedIds events chps m ↔
      ∃ e ∈ events, ∃ kh ∈ (lookupA chps e.source).getD [],
        modelOf kh.2 = m ∧
          ∃ dv ∈ dict_find e.context kh.1, n ∈ idsOfValue dv.2 := by
  have hstream : n ∈ collectedIds events chps m ↔
      ∃ p ∈ collectUpdates events chps, p.1 = m ∧ n ∈ p.2 := by
    rw [collectedIds, get_model_ids_as_applyU, lookupA_applyU_nil]
    cases h : relevantVals m (collectUpdates events chps) with
    | nil =>
        simp only [Option.getD_none, List.not_mem_nil, false_iff]
        rintro ⟨p, hp, hpm, hpn⟩
        have : p.2 ∈ relevantVals m (collectUpdates events chps) := by
          rw [relevantVals, List.mem_map]
          exact ⟨p, List.mem_filter.mpr ⟨hp, by simpa using hpm⟩, rfl⟩
        rw [h] at this
        simp at this
    | cons v vs =>
        rw [show (some ((v :: vs).foldl idCombine [])).getD [] =
          (v :: vs).foldl idCombine [] from rfl, foldl_idCombine, ← h, List.nil_append]
        constructor
        · intro hn
          rw [List.mem_flatMap] at hn
          obtain ⟨ids, hids, hn⟩ := hn
          rw [relevantVals, List.mem_map] at hids
          obtain ⟨p, hpf, rfl⟩ := hids
          rw [List.mem_filter] at hpf
          exact ⟨p, hpf.1, by simpa using hpf.2, by simpa using hn⟩
        · rintro ⟨p, hp, hpm, hn⟩
          rw [List.mem_flatMap]
          refine ⟨p.2, ?_, by simpa using hn⟩
          rw [relevantVals, List.mem_map]
          exact ⟨p, List.mem_filter.mpr ⟨hp, by simpa using hpm⟩, rfl⟩
  rw [hstream, collectUpdates]
  constructor
  · rintro ⟨p, hp, hpm, hpn⟩
    rw [List.mem_flatMap] at hp
    obtain ⟨e, he, hp⟩ := hp
    rw [List.mem_flatMap] at hp
    obtain ⟨kh, hkh, hp⟩ := hp
    rw [List.mem_map] at hp
    obtain ⟨dv, hdv, rfl⟩ := hp
    exact ⟨e, he, kh, hkh, hpm, dv, hdv, hpn⟩
  · rintro ⟨e, he, kh, hkh, hm, dv, hdv, hn⟩
    refine ⟨(modelOf kh.2, idsOfValue dv.2), ?_, hm, hn⟩
    rw [List.mem_flatMap]
    refine ⟨e, he, ?_⟩
    rw [List.mem_flatMap]
    refine ⟨kh, hkh, ?_⟩
    rw [List.mem_map]
    exact ⟨dv, hdv, rfl⟩

/-! ## `fetch_model_data`: the batch fetcher -/

/-- `manager_utils.id_dict(queryset)`: `{obj.id: obj for obj in queryset}`
(a later duplicate id overwrites an earlier one, as in a dict
comprehension). -/
def id_dict (objs : List Record) : List (Int × Record) :=
  objs.foldl (fun acc r => updateA acc r.id r (fun _ => r)) []

/-- `fetch_model_data(model_querysets, model_ids_to_fetch)`: one
`model_querysets[model].filter(id__in=ids_to_fetch)` call per entry of
`model_ids_to_fetch` — the backend collaborator `db` receives the model,
its planned queryset and the ids. Returns the fetched data (indexed by id)
together with the log of `(model, ids)` fetch calls issued, in order. -/
def fetch_model_data (db : Model → QuerySet → List Int → List Record)
    (mq : List (Model × QuerySet)) (midf : List (Model × List Int)) :
    List (Model × List (Int × Record)) × List (Model × List Int) :=
  (midf.map (fun p =>
      (p.1, id_dict (db p.1 ((lookupA mq p.1).getD
        { select_related := [], prefetch_related := [] }) p.2))),
    midf)

/-- How many fetch calls of the log target model `m`. -/
def countCalls (log : List (Model × List Int)) (m : Model) : Nat :=
  (log.filter (fun p => p.1 = m)).length

/-- Whether the scanner finds at least one occurrence of a key hinted at
model `m` in some event whose source has merged hints. -/
def hasMatch (events : List Event)
    (chps : List (String × List (String × Hints))) (m : Model) : Bool :=
  events.any (fun e =>
    ((lookupA chps e.source).getD []).any (fun kh =>
      decide (modelOf kh.2 = m) && decide (0 < (dict_find e.context kh.1).length)))

theorem mem_keys_updateA {α β : Type} [DecidableEq α]
    (xs : List (α × β)) (a b : α) (dflt : β) (f : β → β) :
    b ∈ (updateA xs a dflt f).map Prod.fst ↔ b ∈ xs.map Prod.fst ∨ b = a := by
  rw [keys_updateA]
  by_cases h : a ∈ xs.map Prod.fst
  · rw [if_pos h]
    exact ⟨Or.inl, fun hc => hc.elim id (fun hb => hb ▸ h)⟩
  · rw [if_neg h]
    simp [List.mem_append]

theorem mem_keys_applyU {α β δ : Type} [DecidableEq α]
    (combine : β → δ → β) (dflt : β) (us : List (α × δ)) (acc : List (α × β))
    (b : α) :
    b ∈ (applyU combine dflt acc us).map Prod.fst ↔
      b ∈ acc.map Prod.fst ∨ ∃ u ∈ us, u.1 = b := by
  induction us generalizing acc with
  | nil => simp [applyU]
  | cons u rest ih =>
      have step : applyU combine dflt acc (u :: rest) =
          applyU combine dflt (updateA acc u.1 dflt (fun x => combine x u.2)) rest := rfl
      rw [step, ih, mem_keys_updateA]
      constructor
      · rintro ((h | h) | ⟨u2, hu2, hb⟩)
        · exact Or.inl h
        · exact Or.inr ⟨u, by simp, h.symm⟩
        · exact Or.inr ⟨u2, by simp [hu2], hb⟩
      · rintro (h | ⟨u2, hu2, hb⟩)
        · exact Or.inl (Or.inl h)
        · rcases List.mem_cons.mp hu2 with h2 | h2
          · subst h2; exact Or.inl (Or.inr hb.symm)
          · exact Or.inr ⟨u2, h2, hb⟩

theorem hasMatch_iff (events : List Event)
    (chps : List (String × List (String × Hints))) (m : Model) :
    hasMatch events chps m = true ↔
      ∃ p ∈ collectUpdates events chps, p.1 = m := by
  rw [hasMatch, collectUpdates, List.any_eq_true]
  constructor
  · rintro ⟨e, he, hin⟩
    rw [List.any_eq_true] at hin
    obtain ⟨kh, hkh, hp⟩ := hin
    rw [Bool.and_eq_true, decide_eq_true_iff, decide_eq_true_iff] at hp
    obtain ⟨dv, hdv⟩ := List.exists_mem_of_ne_nil _ (List.length_pos.mp hp.2)
    refine ⟨(modelOf kh.2, idsOfValue dv.2), ?_, hp.1⟩
    rw [List.mem_flatMap]
    refine ⟨e, he, ?_⟩
    rw [List.mem_flatMap]
    refine ⟨kh, hkh, ?_⟩
    rw [List.mem_map]
    exact ⟨dv, hdv, rfl⟩
  · rintro ⟨p, hp, hpm⟩
    rw [List.mem_flatMap] at hp
    obtain ⟨e, he, hp⟩ := hp
    rw [List.mem_flatMap] at hp
    obtain ⟨kh, hkh, hp⟩ := hp
    rw [List.mem_map] at hp
    obtain ⟨dv, hdv, rfl⟩ := hp
    refine ⟨e, he, ?_⟩
    rw [List.any_eq_true]
    refine ⟨kh, hkh, ?_⟩
    rw [Bool.and_eq_true, decide_eq_true_iff, decide_eq_true_iff]
    exact ⟨hpm, List.length_pos.mpr (List.ne_nil_of_mem hdv)⟩

theorem countCalls_eq_zero {log : List (Model × List Int)} {m : Model}
    (h : m ∉ log.map Prod.fst) : countCalls log m = 0 := by
  induction log with
  | nil => rfl
  | cons p rest ih =>
      rw [List.map_cons, List.mem_cons] at h
      push_neg at h
      rw [countCalls, List.filter_cons, if_neg (by simpa using (fun hh => h.1 hh.symm))]
      exact ih h.2

theorem countCalls_nodup {log : List (Model × List Int)} {m : Model}
    (h : (log.map Prod.fst).Nodup) :
    countCalls log m = if m ∈ log.map Prod.fst then 1 else 0 := by
  induction log with
  | nil => simp [countCalls]
  | cons p rest ih =>
      rw [List.map_cons, List.nodup_cons] at h
      by_cases hm : p.1 = m
      · rw [countCalls, List.filter_cons, if_pos (by simpa using hm)]
        have hz : m ∉ rest.map Prod.fst := hm ▸ h.1
        have : (List.filter (fun p => decide (p.1 = m)) rest).length = 0 :=
          countCalls_eq_zero hz
        rw [List.length_cons, this, List.map_cons, if_pos (by simp [hm])]
      · rw [countCalls, List.filter_cons, if_neg (by simpa using hm)]
        rw [show (List.filter (fun p => decide (p.1 = m)) rest).length =
          countCalls rest m from rfl, ih h.2, List.map_cons]
        have hmm : ¬ m = p.1 := fun hh => hm hh.symm
        by_cases hr : m ∈ rest.map Prod.fst
        · rw [if_pos hr, if_pos (by simp [hr])]
        · rw [if_neg hr, if_neg (by simp [hmm, hr])]

/-- The keys of the collected map are nodup, so each model gets at most one
fetch call. -/
theorem nodupKeys_get_model_ids (events : List Event)
    (chps : List (String × List (String × Hints))) :
    ((get_model_ids_to_fetch events chps).map Prod.fst).Nodup := by
  rw [get_model_ids_as_applyU]
  exact nodupKeys_applyU _ _ _ _ (by simp)

/-! ## `load_fetched_objects_into_contexts`: the hydrator

The Python pass mutates each event's tree in place while iterating the
`dict_find` generator. Its pure embedding returns the rewritten tree, or
`none` for the one failure the pass itself can raise: `dict.get` applied
to an unhashable key — a matched value (or matched-list element) that is
itself a `list` or `dict` raises `TypeError`.

The generator resumes into the value it just yielded: after an in-place
list rewrite it walks the freshly written records and `None`s (which
contain no dictionaries, so nothing more is yielded there), and after a
scalar rewrite it walks the original scalar (nothing to yield either) —
a dict-valued match raises before the rewrite. Hence the embedding does
not re-traverse a matched value. -/

/-- `model_data[model].get(value)` once the key is known hashable: an
integer-like key looks up the fetched record (a miss gives `None`); any
other scalar — a string, `None`, or a record object — can never equal an
integer id, so it misses and gives `None` as well. -/
def fetchedFor (g : Int → Option Record) (v : Value) : Value :=
  match intLike v with
  | some n =>
      match g n with
      | some r => r.toValue
      | none => Value.null
  | none => Value.null

/-- `model_data[model].get(value)` on an arbitrary tree value: a `list` or
`dict` key is unhashable and raises `TypeError` (`none`). -/
def lookupValue (g : Int → Option Record) : Value → Option Value
  | Value.list _ => none
  | Value.map _ => none
  | v => some (fetchedFor g v)

/-- `for i, model_id in enumerate(d[context_key]): d[context_key][i] = ...`:
replace each element, left to right, failing fast on an unhashable one. -/
def mapLookup (g : Int → Option Record) : List Value → Option (List Value)
  | [] => some []
  | y :: ys =>
      (lookupValue g y).bind (fun y2 =>
        (mapLookup g ys).bind (fun ys2 => some (y2 :: ys2)))

/-- The rewrite of one matched value: elementwise for a list, a single
`.get` otherwise. -/
def hydrateMatch (g : Int → Option Record) : Value → Option Value
  | Value.list ys => (mapLookup g ys).map Value.list
  | v => lookupValue g v

mutual

/-- One hydration pass of `load_fetched_objects_into_contexts` for a single
`(context_key, hints)` pair: the `dict_find` walk with the loop body's
in-place writes applied. -/
def hydrate (g : Int → Option Record) (key : String) : Value → Option Value
  | Value.list xs => (hydrateList g key xs).map Value.list
  | Value.map xs => (hydrateEntries g key xs).map Value.map
  | v => some v

def hydrateList (g : Int → Option Record) (key : String) :
    List Value → Option (List Value)
  | [] => some []
  | x :: xs =>
      (hydrate g key x).bind (fun x2 =>
        (hydrateList g key xs).bind (fun xs2 => some (x2 :: xs2)))

def hydrateEntries (g : Int → Option Record) (key : String) :
    List (String × Value) → Option (List (String × Value))
  | [] => some []
  | (k, v) :: rest =>
      (if k = key then hydrateMatch g v else hydrate g key v).bind (fun v2 =>
        (hydrateEntries g key rest).bind (fun rest2 => some ((k, v2) :: rest2)))

end

/-- `model_data[model].get(_)` — the fetched data of one model, looked up
by id (a model outside the fetched map reads as an empty map; inside the
full pipeline every model hydration touches was collected and fetched). -/
def mdLookup (fetched : List (Model × List (Int × Record))) (m : Model) :
    Int → Option Record :=
  fun n => lookupA ((lookupA fetched m).getD []) n

/-- The hydration passes of one event: one `hydrate` per
`(context_key, hints)` of its source's merged hints, in order. -/
def hydrateKeys (fetched : List (Model × List (Int × Record))) :
    List (String × Hints) → Value → Option Value
  | [], ctx => some ctx
  | kh :: rest, ctx =>
      (hydrate (mdLookup fetched (modelOf kh.2)) kh.1 ctx).bind
        (fun ctx2 => hydrateKeys fetched rest ctx2)

/-- `load_fetched_objects_into_contexts(events, model_data,
context_hints_per_source)`: hydrate each event's context in place, with the
merged hints of its source (`.get(event.source, {})`). -/
def load_fetched_objects_into_contexts (fetched : List (Model × List (Int × Record)))
    (chps : List (String × List (String × Hints))) :
    List Event → Option (List Event)
  | [] => some []
  | e :: es =>
      (hydrateKeys fetched ((lookupA chps e.source).getD []) e.context).bind
        (fun ctx =>
          (load_fetched_objects_into_contexts fetched chps es).bind
            (fun rest => some ({ e with context := ctx } :: rest)))

/-! ## `load_contexts`: the orchestrator -/

/-- `load_contexts(events, mediums)`: gather the event sources and medium
render groups, fetch the applicable `ContextRenderer` rows from the hint
store (`crdb` is the table; the `source__in`/`render_group__in` filter is
applied here), then merge, plan, collect, fetch (through the backend `db`)
and hydrate, returning the events. -/
def load_contexts (db : Model → QuerySet → List Int → List Record)
    (crdb : List ContextRenderer) (events : List Event) (mediums : List Medium) :
    Option (List Event) :=
  let sources : List String := events.map (fun e => e.source)
  let render_groups : List String := mediums.map (fun md => md.render_group)
  let context_renderers := crdb.filter (fun cr =>
    decide (cr.source ∈ sources) && decide (cr.render_group ∈ render_groups))
  let chps := get_context_hints_per_source context_renderers
  let mq := get_querysets_for_context_hints chps
  let midf := get_model_ids_to_fetch events chps
  let fetched := (fetch_model_data db mq midf).1
  load_fetched_objects_into_contexts fetched chps events

/-! ## Shape preservation of hydration -/

/-- A scalar tree value: neither a list nor a dictionary. -/
def isScalar : Value → Bool
  | Value.list _ => false
  | Value.map _ => false
  | _ => true

theorem lookupValue_scalar (g : Int → Option Record) (y : Value)
    (h : isScalar y = true) : lookupValue g y = some (fetchedFor g y) := by
  cases y <;> first | rfl | simp [isScalar] at h

theorem lookupValue_some (g : Int → Option Record) {y y2 : Value}
    (h : lookupValue g y = some y2) :
    isScalar y = true ∧ y2 = fetchedFor g y := by
  cases y <;> first
    | exact ⟨rfl, (Option.some_inj.mp h).symm⟩
    | simp [lookupValue] at h

theorem isScalar_fetchedFor (g : Int → Option Record) (y : Value) :
    isScalar (fetchedFor g y) = true := by
  cases hi : intLike y with
  | none => simp [fetchedFor, hi, isScalar]
  | some n =>
      cases hg : g n with
      | none => simp [fetchedFor, hi, hg, isScalar]
      | some r => simp [fetchedFor, hi, hg, Record.toValue, isScalar]

theorem mapLookup_scalar (g : Int → Option Record) (ys : List Value)
    (h : ∀ y ∈ ys, isScalar y = true) :
    mapLookup g ys = some (ys.map (fetchedFor g)) := by
  induction ys with
  | nil => rfl
  | cons y ys ih =>
      rw [show mapLookup g (y :: ys) =
        (lookupValue g y).bind (fun y2 =>
          (mapLookup g ys).bind (fun ys2 => some (y2 :: ys2))) from rfl]
      rw [lookupValue_scalar g y (h y (by simp)), ih (fun x hx => h x (by simp [hx]))]
      rfl

/-! Skeleton equality: same nesting structure — lists of the same length,
dictionaries with the same keys in the same order — with arbitrary scalars
at the leaves. -/

mutual

def sameSkeleton : Value → Value → Bool
  | Value.list xs, Value.list ys => sameSkeletonL xs ys
  | Value.list _, _ => false
  | _, Value.list _ => false
  | Value.map xs, Value.map ys => sameSkeletonE xs ys
  | Value.map _, _ => false
  | _, Value.map _ => false
  | _, _ => true

def sameSkeletonL : List Value → List Value → Bool
  | [], [] => true
  | x :: xs, y :: ys => sameSkeleton x y && sameSkeletonL xs ys
  | _, _ => false

def sameSkeletonE : List (String × Value) → List (String × Value) → Bool
  | [], [] => true
  | (k, v) :: xs, (l, w) :: ys => (k == l) && sameSkeleton v w && sameSkeletonE xs ys
  | _, _ => false

end

theorem sameSkeleton_scalar {v w : Value} (hv : isScalar v = true)
    (hw : isScalar w = true) : sameSkeleton v w = true := by
  cases v <;> cases w <;> first | rfl | simp_all [isScalar]

mutual

theorem sameSkeleton_refl (v : Value) : sameSkeleton v v = true := by
  match v with
  | Value.list xs =>
      rw [show sameSkeleton (Value.list xs) (Value.list xs) = sameSkeletonL xs xs from rfl]
      exact sameSkeletonL_refl xs
  | Value.map xs =>
      rw [show sameSkeleton (Value.map xs) (Value.map xs) = sameSkeletonE xs xs from rfl]
      exact sameSkeletonE_refl xs
  | Value.int n => rfl
  | Value.str s => rfl
  | Value.bool b => rfl
  | Value.null => rfl
  | Value.record a m i => rfl

theorem sameSkeletonL_refl (xs : List Value) : sameSkeletonL xs xs = true := by
  match xs with
  | [] => rfl
  | x :: xs =>
      rw [show sameSkeletonL (x :: xs) (x :: xs) =
        (sameSkeleton x x && sameSkeletonL xs xs) from rfl]
      rw [sameSkeleton_refl x, sameSkeletonL_refl xs]
      rfl

theorem sameSkeletonE_refl (xs : List (String × Value)) : sameSkeletonE xs xs = true := by
  match xs with
  | [] => rfl
  | (k, v) :: xs =>
      rw [show sameSkeletonE ((k, v) :: xs) ((k, v) :: xs) =
        ((k == k) && sameSkeleton v v && sameSkeletonE xs xs) from rfl]
      rw [sameSkeleton_refl v, sameSkeletonE_refl xs]
      simp

end

theorem sameSkeleton_list_inv {xs : List Value} {c : Value}
    (h : sameSkeleton (Value.list xs) c = true) :
    ∃ zs, c = Value.list zs ∧ sameSkeletonL xs zs = true := by
  cases c <;> first | exact ⟨_, rfl, h⟩ | exact Bool.noConfusion h

theorem sameSkeleton_map_inv {xs : List (String × Value)} {c : Value}
    (h : sameSkeleton (Value.map xs) c = true) :
    ∃ zs, c = Value.map zs ∧ sameSkeletonE xs zs = true := by
  cases c <;> first | exact ⟨_, rfl, h⟩ | exact Bool.noConfusion h

theorem sameSkeleton_scalar_right {a b : Value} (ha : isScalar a = true)
    (hs : sameSkeleton a b = true) : isScalar b = true := by
  cases a <;> cases b <;>
    first | rfl | exact Bool.noConfusion ha | exact Bool.noConfusion hs

mutual

theorem sameSkeleton_trans (a b c : Value) (h1 : sameSkeleton a b = true)
    (h2 : sameSkeleton b c = true) : sameSkeleton a c = true := by
  match a with
  | Value.list xs =>
      obtain ⟨ys, rfl, hL1⟩ := sameSkeleton_list_inv h1
      obtain ⟨zs, rfl, hL2⟩ := sameSkeleton_list_inv h2
      show sameSkeletonL xs zs = true
      exact sameSkeletonL_trans xs ys zs hL1 hL2
  | Value.map xs =>
      obtain ⟨ys, rfl, hE1⟩ := sameSkeleton_map_inv h1
      obtain ⟨zs, rfl, hE2⟩ := sameSkeleton_map_inv h2
      show sameSkeletonE xs zs = true
      exact sameSkeletonE_trans xs ys zs hE1 hE2
  | Value.int n =>
      have hb := sameSkeleton_scalar_right (show isScalar (Value.int n) = true from rfl) h1
      exact sameSkeleton_scalar rfl (sameSkeleton_scalar_right hb h2)
  | Value.str s =>
      have hb := sameSkeleton_scalar_right (show isScalar (Value.str s) = true from rfl) h1
      exact sameSkeleton_scalar rfl (sameSkeleton_scalar_right hb h2)
  | Value.bool b2 =>
      have hb := sameSkeleton_scalar_right (show isScalar (Value.bool b2) = true from rfl) h1
      exact sameSkeleton_scalar rfl (sameSkeleton_scalar_right hb h2)
  | Value.null =>
      have hb := sameSkeleton_scalar_right (show isScalar Value.null = true from rfl) h1
      exact sameSkeleton_scalar rfl (sameSkeleton_scalar_right hb h2)
  | Value.record ap md i =>
      have hb := sameSkeleton_scalar_right
        (show isScalar (Value.record ap md i) = true from rfl) h1
      exact sameSkeleton_scalar rfl (sameSkeleton_scalar_right hb h2)

theorem sameSkeletonL_trans (xs ys zs : List Value)
    (h1 : sameSkeletonL xs ys = true) (h2 : sameSkeletonL ys zs = true) :
    sameSkeletonL xs zs = true := by
  match xs, ys, zs with
  | [], [], [] => rfl
  | [], [], _ :: _ => exact Bool.noConfusion h2
  | [], _ :: _, _ => exact Bool.noConfusion h1
  | _ :: _, [], _ => exact Bool.noConfusion h1
  | _ :: _, _ :: _, [] => exact Bool.noConfusion h2
  | x :: xs, y :: ys, z :: zs =>
      rw [show sameSkeletonL (x :: xs) (y :: ys) =
        (sameSkeleton x y && sameSkeletonL xs ys) from rfl, Bool.and_eq_true] at h1
      rw [show sameSkeletonL (y :: ys) (z :: zs) =
        (sameSkeleton y z && sameSkeletonL ys zs) from rfl, Bool.and_eq_true] at h2
      show (sameSkeleton x z && sameSkeletonL xs zs) = true
      rw [Bool.and_eq_true]
      exact ⟨sameSkeleton_trans x y z h1.1 h2.1, sameSkeletonL_trans xs ys zs h1.2 h2.2⟩

theorem sameSkeletonE_trans (xs ys zs : List (String × Value))
    (h1 : sameSkeletonE xs ys = true) (h2 : sameSkeletonE ys zs = true) :
    sameSkeletonE xs zs = true := by
  match xs, ys, zs with
  | [], [], [] => rfl
  | [], [], _ :: _ => exact Bool.noConfusion h2
  | [], _ :: _, _ => exact Bool.noConfusion h1
  | _ :: _, [], _ => exact Bool.noConfusion h1
  | _ :: _, _ :: _, [] => exact Bool.noConfusion h2
  | (k, v) :: xs, (l, w) :: ys, (m2, u) :: zs =>
      rw [show sameSkeletonE ((k, v) :: xs) ((l, w) :: ys) =
        ((k == l) && sameSkeleton v w && sameSkeletonE xs ys) from rfl,
        Bool.and_eq_true, Bool.and_eq_true] at h1
      rw [show sameSkeletonE ((l, w) :: ys) ((m2, u) :: zs) =
        ((l == m2) && sameSkeleton w u && sameSkeletonE ys zs) from rfl,
        Bool.and_eq_true, Bool.and_eq_true] at h2
      show ((k == m2) && sameSkeleton v u && sameSkeletonE xs zs) = true
      rw [Bool.and_eq_true, Bool.and_eq_true]
      refine ⟨⟨?_, sameSkeleton_trans v w u h1.1.2 h2.1.2⟩,
        sameSkeletonE_trans xs ys zs h1.2 h2.2⟩
      have hk : k = l := by simpa using h1.1.1
      have hl : l = m2 := by simpa using h2.1.1
      simp [hk, hl]

end

theorem mapLookup_skeleton (g : Int → Option Record) (ys ys2 : List Value)
    (h : mapLookup g ys = some ys2) : sameSkeletonL ys ys2 = true := by
  induction ys generalizing ys2 with
  | nil =>
      rw [show mapLookup g [] = some [] from rfl] at h
      injection h with h
      subst h
      rfl
  | cons y ys ih =>
      rw [show mapLookup g (y :: ys) =
        (lookupValue g y).bind (fun y2 =>
          (mapLookup g ys).bind (fun rest2 => some (y2 :: rest2))) from rfl] at h
      rw [Option.bind_eq_some] at h
      obtain ⟨y2, hy2, h⟩ := h
      rw [Option.bind_eq_some] at h
      obtain ⟨rest2, hrest, h⟩ := h
      injection h with h
      subst h
      obtain ⟨hsc, rfl⟩ := lookupValue_some g hy2
      show (sameSkeleton y (fetchedFor g y) && sameSkeletonL ys rest2) = true
      rw [Bool.and_eq_true]
      exact ⟨sameSkeleton_scalar hsc (isScalar_fetchedFor g y), ih rest2 hrest⟩

theorem hydrateMatch_skeleton (g : Int → Option Record) (v v2 : Value)
    (h : hydrateMatch g v = some v2) : sameSkeleton v v2 = true := by
  match v with
  | Value.list ys =>
      rw [show hydrateMatch g (Value.list ys) = (mapLookup g ys).map Value.list
        from rfl, Option.map_eq_some'] at h
      obtain ⟨ys2, hys, rfl⟩ := h
      show sameSkeletonL ys ys2 = true
      exact mapLookup_skeleton g ys ys2 hys
  | Value.map xs =>
      exact Option.noConfusion h
  | Value.int n =>
      injection h with h; subst h
      exact sameSkeleton_scalar rfl (isScalar_fetchedFor g _)
  | Value.str s =>
      injection h with h; subst h
      exact sameSkeleton_scalar rfl (isScalar_fetchedFor g _)
  | Value.bool b =>
      injection h with h; subst h
      exact sameSkeleton_scalar rfl (isScalar_fetchedFor g _)
  | Value.null =>
      injection h with h; subst h
      exact sameSkeleton_scalar rfl (isScalar_fetchedFor g _)
  | Value.record ap md i =>
      injection h with h; subst h
      exact sameSkeleton_scalar rfl (isScalar_fetchedFor g _)

mutual

theorem hydrate_skeleton (g : Int → Option Record) (key : String) :
    ∀ (v v2 : Value), hydrate g key v = some v2 → sameSkeleton v v2 = true
  | Value.list xs, v2, h => by
      rw [show hydrate g key (Value.list xs) = (hydrateList g key xs).map Value.list
        from rfl, Option.map_eq_some'] at h
      obtain ⟨xs2, hxs, rfl⟩ := h
      show sameSkeletonL xs xs2 = true
      exact hydrateList_skeleton g key xs xs2 hxs
  | Value.map xs, v2, h => by
      rw [show hydrate g key (Value.map xs) = (hydrateEntries g key xs).map Value.map
        from rfl, Option.map_eq_some'] at h
      obtain ⟨xs2, hxs, rfl⟩ := h
      show sameSkeletonE xs xs2 = true
      exact hydrateEntries_skeleton g key xs xs2 hxs
  | Value.int n, v2, h => by injection h with h; subst h; rfl
  | Value.str s, v2, h => by injection h with h; subst h; rfl
  | Value.bool b, v2, h => by injection h with h; subst h; rfl
  | Value.null, v2, h => by injection h with h; subst h; rfl
  | Value.record ap md i, v2, h => by injection h with h; subst h; rfl

theorem hydrateList_skeleton (g : Int → Option Record) (key : String) :
    ∀ (xs xs2 : List Value), hydrateList g key xs = some xs2 →
      sameSkeletonL xs xs2 = true
  | [], xs2, h => by
      injection h with h; subst h; rfl
  | x :: xs, xs2, h => by
      rw [show hydrateList g key (x :: xs) =
        (hydrate g key x).bind (fun x2 =>
          (hydrateList g key xs).bind (fun rest2 => some (x2 :: rest2))) from rfl] at h
      rw [Option.bind_eq_some] at h
      obtain ⟨x2, hx2, h⟩ := h
      rw [Option.bind_eq_some] at h
      obtain ⟨rest2, hrest, h⟩ := h
      injection h with h
      subst h
      show (sameSkeleton x x2 && sameSkeletonL xs rest2) = true
      rw [Bool.and_eq_true]
      exact ⟨hydrate_skeleton g key x x2 hx2, hydrateList_skeleton g key xs rest2 hrest⟩

theorem hydrateEntries_skeleton (g : Int → Option Record) (key : String) :
    ∀ (xs xs2 : List (String × Value)), hydrateEntries g key xs = some xs2 →
      sameSkeletonE xs xs2 = true
  | [], xs2, h => by
      injection h with h; subst h; rfl
  | (k, v) :: rest, xs2, h => by
      rw [show hydrateEntries g key ((k, v) :: rest) =
        (if k = key then hydrateMatch g v else hydrate g key v).bind (fun v2 =>
          (hydrateEntries g key rest).bind (fun rest2 => some ((k, v2) :: rest2)))
        from rfl] at h
      rw [Option.bind_eq_some] at h
      obtain ⟨v2, hv2, h⟩ := h
      rw [Option.bind_eq_some] at h
      obtain ⟨rest2, hrest, h⟩ := h
      injection h with h
      subst h
      show ((k == k) && sameSkeleton v v2 && sameSkeletonE rest rest2) = true
      rw [Bool.and_eq_true, Bool.and_eq_true]
      refine ⟨⟨by simp, ?_⟩, hydrateEntries_skeleton g key rest rest2 hrest⟩
      by_cases hk : k = key
      · rw [if_pos hk] at hv2
        exact hydrateMatch_skeleton g v v2 hv2
      · rw [if_neg hk] at hv2
        exact hydrate_skeleton g key v v2 hv2

end

/-! ## Frame: a tree without the key is left untouched -/

mutual

theorem hydrate_frame (g : Int → Option Record) (key : String) :
    ∀ (v : Value), dict_find v key = [] → hydrate g key v = some v
  | Value.list xs, h => by
      rw [dict_find_list_def] at h
      rw [show hydrate g key (Value.list xs) = (hydrateList g key xs).map Value.list
        from rfl, hydrateList_frame g key xs h]
      rfl
  | Value.map xs, h => by
      rw [dict_find_map_def] at h
      rw [show hydrate g key (Value.map xs) = (hydrateEntries g key xs).map Value.map
        from rfl, hydrateEntries_frame g key (Value.map xs) xs h]
      rfl
  | Value.int n, _ => rfl
  | Value.str s, _ => rfl
  | Value.bool b, _ => rfl
  | Value.null, _ => rfl
  | Value.record ap md i, _ => rfl

theorem hydrateList_frame (g : Int → Option Record) (key : String) :
    ∀ (xs : List Value), dict_findList xs key = [] → hydrateList g key xs = some xs
  | [], _ => rfl
  | x :: xs, h => by
      rw [show dict_findList (x :: xs) key =
        dict_find x key ++ dict_findList xs key from rfl, List.append_eq_nil] at h
      rw [show hydrateList g key (x :: xs) =
        (hydrate g key x).bind (fun x2 =>
          (hydrateList g key xs).bind (fun xs2 => some (x2 :: xs2))) from rfl,
        hydrate_frame g key x h.1, hydrateList_frame g key xs h.2]
      rfl

theorem hydrateEntries_frame (g : Int → Option Record) (key : String) :
    ∀ (d : Value) (xs : List (String × Value)), dict_findEntries d xs key = [] →
      hydrateEntries g key xs = some xs
  | _, [], _ => rfl
  | d, (k, v) :: rest, h => by
      rw [show dict_findEntries d ((k, v) :: rest) key =
        (if k = key then [(d, v)] else []) ++ dict_find v key ++
          dict_findEntries d rest key from rfl, List.append_eq_nil,
        List.append_eq_nil] at h
      have hk : ¬ k = key := by
        intro hk
        rw [if_pos hk] at h
        exact List.noConfusion h.1.1
      rw [show hydrateEntries g key ((k, v) :: rest) =
        (if k = key then hydrateMatch g v else hydrate g key v).bind (fun v2 =>
          (hydrateEntries g key rest).bind (fun rest2 => some ((k, v2) :: rest2)))
        from rfl, if_neg hk, hydrate_frame g key v h.1.2,
        hydrateEntries_frame g key d rest h.2]
      rfl

end

/-! ## Lifting to whole events -/

theorem hydrateKeys_skeleton (fetched : List (Model × List (Int × Record)))
    (khs : List (String × Hints)) :
    ∀ (ctx ctx2 : Value), hydrateKeys fetched khs ctx = some ctx2 →
      sameSkeleton ctx ctx2 = true := by
  induction khs with
  | nil =>
      intro ctx ctx2 h
      injection h with h
      subst h
      exact sameSkeleton_refl ctx
  | cons kh rest ih =>
      intro ctx ctx2 h
      rw [show hydrateKeys fetched (kh :: rest) ctx =
        (hydrate (mdLookup fetched (modelOf kh.2)) kh.1 ctx).bind
          (fun mid => hydrateKeys fetched rest mid) from rfl,
        Option.bind_eq_some] at h
      obtain ⟨mid, hmid, hrest⟩ := h
      exact sameSkeleton_trans ctx mid ctx2
        (hydrate_skeleton _ kh.1 ctx mid hmid) (ih mid ctx2 hrest)

theorem hydrateKeys_nil_hints (fetched : List (Model × List (Int × Record)))
    (ctx : Value) : hydrateKeys fetched [] ctx = some ctx := rfl

theorem load_fetched_skeleton (fetched : List (Model × List (Int × Record)))
    (chps : List (String × List (String × Hints))) :
    ∀ (events events2 : List Event),
      load_fetched_objects_into_contexts fetched chps events = some events2 →
        List.Forall₂ (fun e e2 => e.source = e2.source ∧
          sameSkeleton e.context e2.context = true) events events2 := by
  intro events
  induction events with
  | nil =>
      intro events2 h
      injection h with h
      subst h
      exact List.Forall₂.nil
  | cons e es ih =>
      intro events2 h
      rw [show load_fetched_objects_into_contexts fetched chps (e :: es) =
        (hydrateKeys fetched ((lookupA chps e.source).getD []) e.context).bind
          (fun ctx => (load_fetched_objects_into_contexts fetched chps es).bind
            (fun rest => some ({ e with context := ctx } :: rest))) from rfl,
        Option.bind_eq_some] at h
      obtain ⟨ctx, hctx, h⟩ := h
      rw [Option.bind_eq_some] at h
      obtain ⟨rest, hrest, h⟩ := h
      injection h with h
      subst h
      exact List.Forall₂.cons ⟨rfl, hydrateKeys_skeleton _ _ _ _ hctx⟩ (ih rest hrest)

/-! ## Events whose source has no hints pass through untouched -/

theorem lookupA_eq_none {α β : Type} [DecidableEq α] (xs : List (α × β)) (a : α) :
    lookupA xs a = none ↔ a ∉ xs.map Prod.fst := by
  induction xs with
  | nil => simp [lookupA]
  | cons kv rest ih =>
      obtain ⟨k, v⟩ := kv
      by_cases hk : k = a
      · subst hk
        simp [lookupA]
      · have hak : ¬ a = k := fun h => hk h.symm
        simp [lookupA, hk, hak, ih]

/-- When no (filtered) renderer has source `s`, the merged structure has no
entry for `s`. -/
theorem lookupA_merge_none (crs : List ContextRenderer) (s : String)
    (h : ∀ cr ∈ crs, cr.source ≠ s) :
    lookupA (get_context_hints_per_source crs) s = none := by
  rw [lookupA_eq_none, get_context_hints_as_applyU, mem_keys_applyU]
  rintro (hmem | ⟨u, hu, hus⟩)
  · simp at hmem
  · rw [List.mem_flatMap] at hu
    obtain ⟨cr, hcr, hu⟩ := hu
    rw [List.mem_map] at hu
    obtain ⟨kh, _, rfl⟩ := hu
    exact h cr hcr hus

theorem load_fetched_passthrough (fetched : List (Model × List (Int × Record)))
    (chps : List (String × List (String × Hints))) :
    ∀ (events events2 : List Event),
      load_fetched_objects_into_contexts fetched chps events = some events2 →
        List.Forall₂ (fun e e2 => lookupA chps e.source = none → e2 = e)
          events events2 := by
  intro events
  induction events with
  | nil =>
      intro events2 h
      injection h with h
      subst h
      exact List.Forall₂.nil
  | cons e es ih =>
      intro events2 h
      rw [show load_fetched_objects_into_contexts fetched chps (e :: es) =
        (hydrateKeys fetched ((lookupA chps e.source).getD []) e.context).bind
          (fun ctx => (load_fetched_objects_into_contexts fetched chps es).bind
            (fun rest => some ({ e with context := ctx } :: rest))) from rfl,
        Option.bind_eq_some] at h
      obtain ⟨ctx, hctx, h⟩ := h
      rw [Option.bind_eq_some] at h
      obtain ⟨rest, hrest, h⟩ := h
      injection h with h
      subst h
      refine List.Forall₂.cons ?_ (ih rest hrest)
      intro hnone
      rw [hnone] at hctx
      rw [show ((none : Option (List (String × Hints))).getD []) = [] from rfl,
        hydrateKeys_nil_hints] at hctx
      injection hctx with hctx
      subst hctx
      rfl

theorem load_fetched_all_none (fetched : List (Model × List (Int × Record)))
    (chps : List (String × List (String × Hints))) (events : List Event)
    (h : ∀ e ∈ events, lookupA chps e.source = none) :
    load_fetched_objects_into_contexts fetched chps events = some events := by
  induction events with
  | nil => rfl
  | cons e es ih =>
      rw [show load_fetched_objects_into_contexts fetched chps (e :: es) =
        (hydrateKeys fetched ((lookupA chps e.source).getD []) e.context).bind
          (fun ctx => (load_fetched_objects_into_contexts fetched chps es).bind
            (fun rest => some ({ e with context := ctx } :: rest))) from rfl]
      rw [h e (by simp), show ((none : Option (List (String × Hints))).getD []) = []
        from rfl, hydrateKeys_nil_hints, ih (fun x hx => h x (by simp [hx]))]
      rfl

/-- Event `e` has no matching hint declaration: every renderer row with its
source fails the render-group filter. -/
def noHints (crdb : List ContextRenderer) (mediums : List Medium) (e : Event) : Prop :=
  ∀ cr ∈ crdb, cr.source = e.source →
    cr.render_group ∉ mediums.map (fun md => md.render_group)

theorem filtered_no_source (crdb : List ContextRenderer) (events : List Event)
    (mediums : List Medium) (e : Event) (he : noHints crdb mediums e) :
    ∀ cr ∈ crdb.filter (fun cr =>
        decide (cr.source ∈ events.map (fun e => e.source)) &&
          decide (cr.render_group ∈ mediums.map (fun md => md.render_group))),
      cr.source ≠ e.source := by
  intro cr hcr hsrc
  rw [List.mem_filter, Bool.and_eq_true, decide_eq_true_iff, decide_eq_true_iff] at hcr
  exact he cr hcr.1 hsrc hcr.2.2

/-! ## Positions away from hinted keys are untouched -/

/-- One step of a position in a context tree: a list index or a map key. -/
inductive PathStep where
  | inList (i : Nat)
  | inMap (k : String)
  deriving DecidableEq, Repr

/-- The subtree at a position. -/
def getPath : Value → List PathStep → Option Value
  | v, [] => some v
  | Value.list xs, PathStep.inList i :: p => (xs.get? i).bind (fun x => getPath x p)
  | Value.map xs, PathStep.inMap k :: p => (lookupA xs k).bind (fun x => getPath x p)
  | _, _ => none

theorem getPath_nil (v : Value) : getPath v [] = some v := by
  cases v <;> rfl

theorem hydrateList_get (g : Int → Option Record) (key : String) :
    ∀ (xs xs' : List Value), hydrateList g key xs = some xs' →
      ∀ (i : Nat) (x : Value), xs.get? i = some x →
        ∃ x', xs'.get? i = some x' ∧ hydrate g key x = some x' := by
  intro xs
  induction xs with
  | nil =>
      intro xs' h i x hx
      rw [List.get?_eq_none.mpr (by simp)] at hx
      exact Option.noConfusion hx
  | cons x0 rest ih =>
      intro xs' h i x hx
      rw [show hydrateList g key (x0 :: rest) =
        (hydrate g key x0).bind (fun x2 =>
          (hydrateList g key rest).bind (fun xs2 => some (x2 :: xs2))) from rfl,
        Option.bind_eq_some] at h
      obtain ⟨x0', hx0, h⟩ := h
      rw [Option.bind_eq_some] at h
      obtain ⟨rest', hrest, h⟩ := h
      injection h with h
      subst h
      cases i with
      | zero =>
          rw [show (x0 :: rest).get? 0 = some x0 from rfl] at hx
          injection hx with hx
          subst hx
          exact ⟨x0', rfl, hx0⟩
      | succ n =>
          rw [show (x0 :: rest).get? (n + 1) = rest.get? n from rfl] at hx
          obtain ⟨x', hx', hh⟩ := ih rest' hrest n x hx
          exact ⟨x', hx', hh⟩

theorem hydrateEntries_lookup (g : Int → Option Record) (key : String) :
    ∀ (xs xs' : List (String × Value)), hydrateEntries g key xs = some xs' →
      ∀ k : String, k ≠ key →
        (lookupA xs k = none ∧ lookupA xs' k = none) ∨
          ∃ vk vk', lookupA xs k = some vk ∧ lookupA xs' k = some vk' ∧
            hydrate g key vk = some vk' := by
  intro xs
  induction xs with
  | nil =>
      intro xs' h k hk
      injection h with h
      subst h
      exact Or.inl ⟨rfl, rfl⟩
  | cons kv rest ih =>
      obtain ⟨k0, v0⟩ := kv
      intro xs' h k hk
      rw [show hydrateEntries g key ((k0, v0) :: rest) =
        (if k0 = key then hydrateMatch g v0 else hydrate g key v0).bind (fun v2 =>
          (hydrateEntries g key rest).bind (fun rest2 => some ((k0, v2) :: rest2)))
        from rfl, Option.bind_eq_some] at h
      obtain ⟨v0', hv0, h⟩ := h
      rw [Option.bind_eq_some] at h
      obtain ⟨rest', hrest, h⟩ := h
      injection h with h
      subst h
      by_cases hk0 : k0 = k
      · subst hk0
        have hne : ¬ k0 = key := hk
        rw [if_neg hne] at hv0
        exact Or.inr ⟨v0, v0', by simp [lookupA], by simp [lookupA], hv0⟩
      · rw [show lookupA ((k0, v0) :: rest) k = lookupA rest k from by
            simp [lookupA, hk0],
          show lookupA ((k0, v0') :: rest') k = lookupA rest' k from by
            simp [lookupA, hk0]]
        exact ih rest' hrest k hk

/-- Scalars at positions that never pass through the hinted key are
returned unchanged by one hydration pass. -/
theorem hydrate_path (g : Int → Option Record) (key : String) :
    ∀ (p : List PathStep) (v v' : Value), hydrate g key v = some v' →
      (∀ s ∈ p, s ≠ PathStep.inMap key) →
      ∀ w : Value, getPath v p = some w → isScalar w = true →
        getPath v' p = some w := by
  intro p
  induction p with
  | nil =>
      intro v v' h _ w hw hsc
      rw [getPath_nil] at hw
      injection hw with hw
      subst hw
      cases v with
      | list xs => exact Bool.noConfusion hsc
      | map xs => exact Bool.noConfusion hsc
      | int n => injection h with h; subst h; rfl
      | str s => injection h with h; subst h; rfl
      | bool b => injection h with h; subst h; rfl
      | null => injection h with h; subst h; rfl
      | record ap md i => injection h with h; subst h; rfl
  | cons s p ih =>
      intro v v' h hp w hw hsc
      cases s with
      | inList i =>
          cases v with
          | list xs =>
              rw [show hydrate g key (Value.list xs) =
                (hydrateList g key xs).map Value.list from rfl,
                Option.map_eq_some'] at h
              obtain ⟨xs', hxs, rfl⟩ := h
              rw [show getPath (Value.list xs) (PathStep.inList i :: p) =
                (xs.get? i).bind (fun x => getPath x p) from rfl,
                Option.bind_eq_some] at hw
              obtain ⟨x, hx, hxp⟩ := hw
              obtain ⟨x', hx', hhx⟩ := hydrateList_get g key xs xs' hxs i x hx
              rw [show getPath (Value.list xs') (PathStep.inList i :: p) =
                (xs'.get? i).bind (fun x => getPath x p) from rfl, hx']
              exact ih x x' hhx (fun t ht => hp t (by simp [ht])) w hxp hsc
          | map xs => exact Option.noConfusion hw
          | int n => exact Option.noConfusion hw
          | str st => exact Option.noConfusion hw
          | bool b => exact Option.noConfusion hw
          | null => exact Option.noConfusion hw
          | record ap md idx => exact Option.noConfusion hw
      | inMap k =>
          have hkkey : k ≠ key := by
            intro hkk
            exact hp (PathStep.inMap k) (by simp) (by rw [hkk])
          cases v with
          | map xs =>
              rw [show hydrate g key (Value.map xs) =
                (hydrateEntries g key xs).map Value.map from rfl,
                Option.map_eq_some'] at h
              obtain ⟨xs', hxs, rfl⟩ := h
              rw [show getPath (Value.map xs) (PathStep.inMap k :: p) =
                (lookupA xs k).bind (fun x => getPath x p) from rfl,
                Option.bind_eq_some] at hw
              obtain ⟨vk, hvk, hvp⟩ := hw
              rcases hydrateEntries_lookup g key xs xs' hxs k hkkey with
                ⟨hnone, _⟩ | ⟨vk2, vk', hvk2, hvk', hh⟩
              · rw [hnone] at hvk
                exact Option.noConfusion hvk
              · rw [hvk2] at hvk
                injection hvk with hvk
                subst hvk
                rw [show getPath (Value.map xs') (PathStep.inMap k :: p) =
                  (lookupA xs' k).bind (fun x => getPath x p) from rfl, hvk']
                exact ih vk2 vk' hh (fun t ht => hp t (by simp [ht])) w hvp hsc
          | list xs => exact Option.noConfusion hw
          | int n => exact Option.noConfusion hw
          | str st => exact Option.noConfusion hw
          | bool b => exact Option.noConfusion hw
          | null => exact Option.noConfusion hw
          | record ap md idx => exact Option.noConfusion hw

/-- Scalars at positions that never pass through any hinted key of the
event's source survive all of the event's hydration passes unchanged. -/
theorem hydrateKeys_path (fetched : List (Model × List (Int × Record))) :
    ∀ (khs : List (String × Hints)) (ctx ctx' : Value),
      hydrateKeys fetched khs ctx = some ctx' →
      ∀ p : List PathStep, (∀ s ∈ p, ∀ kh ∈ khs, s ≠ PathStep.inMap kh.1) →
      ∀ w : Value, getPath ctx p = some w → isScalar w = true →
        getPath ctx' p = some w := by
  intro khs
  induction khs with
  | nil =>
      intro ctx ctx' h p _ w hw hsc
      injection h with h
      subst h
      exact hw
  | cons kh rest ih =>
      intro ctx ctx' h p hp w hw hsc
      rw [show hydrateKeys fetched (kh :: rest) ctx =
        (hydrate (mdLookup fetched (modelOf kh.2)) kh.1 ctx).bind
          (fun mid => hydrateKeys fetched rest mid) from rfl,
        Option.bind_eq_some] at h
      obtain ⟨mid, hmid, hrest⟩ := h
      have hw2 := hydrate_path (mdLookup fetched (modelOf kh.2)) kh.1 p ctx mid hmid
        (fun t ht => hp t ht kh (by simp)) w hw hsc
      exact ih mid ctx' hrest p (fun t ht kh2 hkh2 => hp t ht kh2 (by simp [hkh2]))
        w hw2 hsc

/-! ## Concrete inputs for counterexamples and witnesses -/

/-- A merged hint for `get_model('auth', 'user')` with no eager loads. -/
def userHints : Hints :=
  { app_name := some "auth", model_name := some "user"
    select_related := [], prefetch_related := [] }

/-- Merged hints: source `"feed"`, context key `"user_ids"` → auth.user. -/
def feedChps : List (String × List (String × Hints)) :=
  [("feed", [("user_ids", userHints)])]

/-- An event whose matched value is a list holding a nested dictionary — a
non-integer-like element. -/
def nestedListEvent : Event :=
  { source := "feed"
    context := Value.map [("user_ids", Value.list [Value.map []])] }

/-- An event whose matched value is a non-integer-like scalar. -/
def strIdEvent : Event :=
  { source := "feed", context := Value.map [("user_ids", Value.str "abc")] }

/-- An event whose matched value holds one boolean. -/
def boolIdEvent : Event :=
  { source := "feed", context := Value.map [("user_ids", Value.list [Value.bool true])] }

/-- A backend that returns nothing. -/
def emptyDb : Model → QuerySet → List Int → List Record := fun _ _ _ => []

def recA : Record := { app := "auth", mdl := "user", id := 1 }
def recB : Record := { app := "auth", mdl := "user", id := 2 }
def recC : Record := { app := "auth", mdl := "user", id := 3 }

/-- Fetched records 1 ↦ A, 2 ↦ B, 3 ↦ C. -/
def recLookup : Int → Option Record := fun n =>
  if n = 1 then some recA else if n = 2 then some recB
  else if n = 3 then some recC else none

/-! ## The claims -/

/-- Claim C1: for every tree and target key, `dict_find` yields exactly the
occurrences of that key — one pair `(enclosing map, value)` per matching
entry of every dictionary node of the tree, at every depth and list
position, including occurrences nested beneath a matched value; none
skipped, none duplicated (permutation of the spec-side enumeration over
all subtrees). -/
theorem claim_scanner_yields_every_occurrence (d : Value) (key : String) :
    (dict_find d key).Perm
      ((subtrees d).flatMap (fun t => matchesOf t key)) :=
  dict_find_perm d key

/-- Claim C2 (counterexample): hydration of a matched list value is NOT
error-free for every non-integer-like element: an element that is itself a
container (here a nested dict) is an unhashable `dict.get` key, so the pass
raises `TypeError` instead of writing the null marker. The first conjunct
shows the matched value is a list containing the offending element; the
second shows the hydration pass fails. -/
theorem claim_hydration_list_error_counterexample :
    dict_find nestedListEvent.context "user_ids" =
        [(nestedListEvent.context, Value.list [Value.map []])] ∧
      load_fetched_objects_into_contexts [(("auth", "user"), [])] feedChps
        [nestedListEvent] = none :=
  ⟨rfl, rfl⟩

/-- A matched entry of a hydrated dictionary holds the rewrite of its old
value. -/
theorem hydrateEntries_lookup_matched (g : Int → Option Record) (key : String) :
    ∀ (xs xs' : List (String × Value)), hydrateEntries g key xs = some xs' →
      ∀ v : Value, lookupA xs key = some v →
        ∃ v2, lookupA xs' key = some v2 ∧ hydrateMatch g v = some v2 := by
  intro xs
  induction xs with
  | nil =>
      intro xs' h v hv
      exact Option.noConfusion hv
  | cons kv rest ih =>
      obtain ⟨k0, v0⟩ := kv
      intro xs' h v hv
      rw [show hydrateEntries g key ((k0, v0) :: rest) =
        (if k0 = key then hydrateMatch g v0 else hydrate g key v0).bind (fun v2 =>
          (hydrateEntries g key rest).bind (fun rest2 => some ((k0, v2) :: rest2)))
        from rfl, Option.bind_eq_some] at h
      obtain ⟨v0', hv0, h⟩ := h
      rw [Option.bind_eq_some] at h
      obtain ⟨rest', hrest, h⟩ := h
      injection h with h
      subst h
      by_cases hk0 : k0 = key
      · rw [show lookupA ((k0, v0) :: rest) key = some v0 from by simp [lookupA, hk0]]
          at hv
        injection hv with hv
        subst hv
        rw [if_pos hk0] at hv0
        exact ⟨v0', by simp [lookupA, hk0], hv0⟩
      · rw [show lookupA ((k0, v0) :: rest) key = lookupA rest key from by
            simp [lookupA, hk0]] at hv
        obtain ⟨v2, hv2, hh⟩ := ih rest' hrest v hv
        exact ⟨v2, by simp [lookupA, hk0, hv2], hh⟩

/-- Claim C2 (amended): whenever a hydration pass succeeds on a dictionary
whose entry at the hinted key holds a list of scalar elements, the
resulting dictionary holds at that key the list with each element at index
`i` replaced by the record fetched for the integer value of the original
element at `i` (booleans as 1/0) — same order, same length; a lookup miss,
including any non-integer-like scalar element, yields the null marker at
that exact position (`fetchedFor`). A container element instead raises a
type error (see the counterexample). -/
theorem claim_hydration_list_scalar_elements (g : Int → Option Record)
    (key : String) (xs : List (String × Value)) (v' : Value) (ys : List Value)
    (hok : hydrate g key (Value.map xs) = some v')
    (hkey : lookupA xs key = some (Value.list ys))
    (hsc : ∀ y ∈ ys, isScalar y = true) :
    ∃ xs', v' = Value.map xs' ∧
      lookupA xs' key = some (Value.list (ys.map (fetchedFor g))) := by
  rw [show hydrate g key (Value.map xs) = (hydrateEntries g key xs).map Value.map
    from rfl, Option.map_eq_some'] at hok
  obtain ⟨xs', hxs, rfl⟩ := hok
  obtain ⟨v2, hv2, hm⟩ := hydrateEntries_lookup_matched g key xs xs' hxs _ hkey
  rw [show hydrateMatch g (Value.list ys) = (mapLookup g ys).map Value.list from rfl,
    mapLookup_scalar g ys hsc] at hm
  injection hm with hm
  subst hm
  exact ⟨xs', rfl, hv2⟩

/-- Claim C2 (amended, witness): identifiers `[1, 2, 3]` fetched as records
`{1: A, 2: B, 3: C}` at context key `"user_ids"` hydrate to `[A, B, C]`, in
order and with the same length, leaving the sibling entry untouched. -/
theorem claim_hydration_list_scalar_elements_witness :
    ∃ xs', Value.map [("note", Value.str "hi"),
        ("user_ids", Value.list [recA.toValue, recB.toValue, recC.toValue])] =
          Value.map xs' ∧
      lookupA xs' "user_ids" =
        some (Value.list [recA.toValue, recB.toValue, recC.toValue]) := by
  obtain ⟨xs', h1, h2⟩ := claim_hydration_list_scalar_elements recLookup "user_ids"
    [("note", Value.str "hi"),
      ("user_ids", Value.list [Value.int 1, Value.int 2, Value.int 3])]
    (Value.map [("note", Value.str "hi"),
      ("user_ids", Value.list [recA.toValue, recB.toValue, recC.toValue])])
    [Value.int 1, Value.int 2, Value.int 3] (by rfl) (by rfl) (by decide)
  refine ⟨xs', h1, ?_⟩
  rw [h2]
  rfl

/-- Claim C3: merging renderer declarations gives, per `(source, key)`, an
entry exactly when some declaration contributes to it; its type names are
those of the last-processed contributing declaration, its eager-load sets
are the unions of all contributions (membership form in the second
conjunct); a declaration with no hints leaves the merge unchanged. -/
theorem claim_hint_merging :
    (∀ (crs : List ContextRenderer) (src key : String),
        lookup2 (get_context_hints_per_source crs) src key =
          mergeContribs (contributions crs src key)) ∧
    (∀ (crs : List ContextRenderer) (src key : String) (h : Hints),
        lookup2 (get_context_hints_per_source crs) src key = some h →
          ∀ x : String,
            (x ∈ h.select_related ↔
              ∃ spec ∈ contributions crs src key, x ∈ spec.select_related) ∧
            (x ∈ h.prefetch_related ↔
              ∃ spec ∈ contributions crs src key, x ∈ spec.prefetch_related)) ∧
    (∀ (pre post : List ContextRenderer) (src rg : String),
        get_context_hints_per_source (pre ++ ContextRenderer.mk src rg [] :: post) =
          get_context_hints_per_source (pre ++ post)) := by
  refine ⟨lookup2_get_context_hints, ?_, ?_⟩
  · intro crs src key h hsome x
    rw [lookup2_get_context_hints, mergeContribs] at hsome
    rw [Option.map_eq_some'] at hsome
    obtain ⟨last, _, hlast⟩ := hsome
    subst hlast
    constructor
    · show x ∈ (contributions crs src key).flatMap (fun s => s.select_related) ↔ _
      rw [List.mem_flatMap]
    · show x ∈ (contributions crs src key).flatMap (fun s => s.prefetch_related) ↔ _
      rw [List.mem_flatMap]
  · intro pre post src rg
    rw [get_context_hints_per_source, get_context_hints_per_source,
      List.foldl_append, List.foldl_append, List.foldl_cons]
    rfl

/-- Claim C4: query planning produces exactly one queryset per referenced
model — its keys are nodup, and looking any model up gives precisely the
spec-side union of the `select_related` (direct) and `prefetch_related`
(transitive) eager-load sets across every merged hint that references that
model, and nothing for an unreferenced model. -/
theorem claim_query_planning :
    (∀ (chps : List (String × List (String × Hints))) (m : Model),
        lookupA (get_querysets_for_context_hints chps) m = querySpecFor chps m) ∧
    (∀ chps : List (String × List (String × Hints)),
        ((get_querysets_for_context_hints chps).map Prod.fst).Nodup) ∧
    (∀ (chps : List (String × List (String × Hints))) (m : Model) (qs : QuerySet),
        lookupA (get_querysets_for_context_hints chps) m = some qs →
          ∀ x : String,
            (x ∈ qs.select_related ↔
              ∃ h ∈ hintsForModel chps m, x ∈ h.select_related) ∧
            (x ∈ qs.prefetch_related ↔
              ∃ h ∈ hintsForModel chps m, x ∈ h.prefetch_related)) := by
  refine ⟨lookupA_get_querysets, nodupKeys_get_querysets, ?_⟩
  intro chps m qs hsome x
  rw [lookupA_get_querysets, querySpecFor] at hsome
  cases hf : hintsForModel chps m with
  | nil => rw [hf] at hsome; exact Option.noConfusion hsome
  | cons h hs =>
      rw [hf] at hsome
      injection hsome with hsome
      subst hsome
      rw [← hf]
      constructor
      · show x ∈ (hintsForModel chps m).flatMap (fun h => h.select_related) ↔ _
        rw [List.mem_flatMap]
      · show x ∈ (hintsForModel chps m).flatMap (fun h => h.prefetch_related) ↔ _
        rw [List.mem_flatMap]

/-- Claim C5: identifier collection returns, per model, exactly the
integer-like scalar elements found at the scanner's matches of hinted keys
(scalars wrapped as single-element lists first — `wrapList`; non-integer-like
elements excluded by `intLike` inside `idsOfValue`), over events whose
source has merged hints; events with an absent source contribute nothing
(their hint list reads as `[]`, so the inner existential is empty). -/
theorem claim_id_collection (events : List Event)
    (chps : List (String × List (String × Hints))) (m : Model) (n : Int) :
    n ∈ collectedIds events chps m ↔
      ∃ e ∈ events, ∃ kh ∈ (lookupA chps e.source).getD [],
        modelOf kh.2 = m ∧
          ∃ dv ∈ dict_find e.context kh.1, n ∈ idsOfValue dv.2 :=
  mem_collectedIds events chps m n

/-- Claim C6 (counterexample): a model whose collected identifier set is
empty — because the matched key held only a non-integer-like value — still
receives a fetch call: the collected map has an (empty) entry for it, and
the fetch log records exactly one call for it, not zero. -/
theorem claim_fetch_empty_ids_counterexample :
    lookupA (get_model_ids_to_fetch [strIdEvent] feedChps) ("auth", "user") =
        some ([] : List Int) ∧
      countCalls ((fetch_model_data emptyDb []
        (get_model_ids_to_fetch [strIdEvent] feedChps)).2) ("auth", "user") = 1 :=
  ⟨rfl, rfl⟩

/-- Claim C6 (amended): the batch fetcher issues exactly one fetch call per
model for which the scanner found at least one occurrence of a hinted key
(even when no identifier passed the integer filter, so the collected set is
empty), and no call for a model with no such occurrence. -/
theorem claim_one_fetch_per_matched_model (events : List Event)
    (chps : List (String × List (String × Hints)))
    (db : Model → QuerySet → List Int → List Record)
    (mq : List (Model × QuerySet)) (m : Model) :
    countCalls ((fetch_model_data db mq (get_model_ids_to_fetch events chps)).2) m =
      if hasMatch events chps m then 1 else 0 := by
  rw [show (fetch_model_data db mq (get_model_ids_to_fetch events chps)).2 =
    get_model_ids_to_fetch events chps from rfl,
    countCalls_nodup (nodupKeys_get_model_ids events chps)]
  have hmem : m ∈ (get_model_ids_to_fetch events chps).map Prod.fst ↔
      hasMatch events chps m = true := by
    rw [get_model_ids_as_applyU, mem_keys_applyU, hasMatch_iff]
    simp
  by_cases hm : hasMatch events chps m = true
  · rw [if_pos (hmem.mpr hm), if_pos hm]
  · rw [if_neg (fun hh => hm (hmem.mp hh)), if_neg hm]

/-- Claim C7: hydration preserves the shape of every event's context tree —
no dictionary key is removed (same keys, same order) and no list changes
length (first conjunct, skeleton preservation over the whole pass); a tree
with no occurrence of the hinted key at all is returned completely
unchanged (second conjunct); and a scalar at any position that does not
pass through a hinted key — every sibling position and every unmatched
key — is returned identically (third conjunct). -/
theorem claim_hydration_preserves_shape :
    (∀ (fetched : List (Model × List (Int × Record)))
        (chps : List (String × List (String × Hints)))
        (events events2 : List Event),
        load_fetched_objects_into_contexts fetched chps events = some events2 →
          List.Forall₂ (fun e e2 => e.source = e2.source ∧
            sameSkeleton e.context e2.context = true) events events2) ∧
    (∀ (g : Int → Option Record) (key : String) (v : Value),
        dict_find v key = [] → hydrate g key v = some v) ∧
    (∀ (fetched : List (Model × List (Int × Record)))
        (khs : List (String × Hints)) (ctx ctx2 : Value),
        hydrateKeys fetched khs ctx = some ctx2 →
          ∀ p : List PathStep, (∀ s ∈ p, ∀ kh ∈ khs, s ≠ PathStep.inMap kh.1) →
            ∀ w : Value, getPath ctx p = some w → isScalar w = true →
              getPath ctx2 p = some w) :=
  ⟨load_fetched_skeleton, hydrate_frame, hydrateKeys_path⟩

/-- Claim C8: an event whose source has no matching hint declaration passes
through `load_contexts` unchanged — positionally, whenever the load
succeeds (first conjunct) — and when no event has a matching declaration
the whole load raises nothing and returns exactly the events list it was
given (second conjunct). -/
theorem claim_hintless_events_pass_through :
    (∀ (db : Model → QuerySet → List Int → List Record)
        (crdb : List ContextRenderer) (events : List Event)
        (mediums : List Medium) (events2 : List Event),
        load_contexts db crdb events mediums = some events2 →
          ∀ (i : Nat) (h1 : i < events.length) (h2 : i < events2.length),
            noHints crdb mediums (events.get ⟨i, h1⟩) →
              events2.get ⟨i, h2⟩ = events.get ⟨i, h1⟩) ∧
    (∀ (db : Model → QuerySet → List Int → List Record)
        (crdb : List ContextRenderer) (events : List Event)
        (mediums : List Medium),
        (∀ e ∈ events, noHints crdb mediums e) →
          load_contexts db crdb events mediums = some events) := by
  constructor
  · intro db crdb events mediums events2 h i h1 h2 hno
    rw [show load_contexts db crdb events mediums =
      load_fetched_objects_into_contexts
        ((fetch_model_data db
          (get_querysets_for_context_hints (get_context_hints_per_source
            (crdb.filter (fun cr =>
              decide (cr.source ∈ events.map (fun e => e.source)) &&
                decide (cr.render_group ∈ mediums.map (fun md => md.render_group))))))
          (get_model_ids_to_fetch events (get_context_hints_per_source
            (crdb.filter (fun cr =>
              decide (cr.source ∈ events.map (fun e => e.source)) &&
                decide (cr.render_group ∈ mediums.map (fun md => md.render_group))))))).1)
        (get_context_hints_per_source
          (crdb.filter (fun cr =>
            decide (cr.source ∈ events.map (fun e => e.source)) &&
              decide (cr.render_group ∈ mediums.map (fun md => md.render_group)))))
        events from rfl] at h
    have hpass := load_fetched_passthrough _ _ _ _ h
    have hnone := lookupA_merge_none _ (events.get ⟨i, h1⟩).source
      (filtered_no_source crdb events mediums _ hno)
    exact hpass.get h1 h2 hnone
  · intro db crdb events mediums hall
    rw [show load_contexts db crdb events mediums =
      load_fetched_objects_into_contexts
        ((fetch_model_data db
          (get_querysets_for_context_hints (get_context_hints_per_source
            (crdb.filter (fun cr =>
              decide (cr.source ∈ events.map (fun e => e.source)) &&
                decide (cr.render_group ∈ mediums.map (fun md => md.render_group))))))
          (get_model_ids_to_fetch events (get_context_hints_per_source
            (crdb.filter (fun cr =>
              decide (cr.source ∈ events.map (fun e => e.source)) &&
                decide (cr.render_group ∈ mediums.map (fun md => md.render_group))))))).1)
        (get_context_hints_per_source
          (crdb.filter (fun cr =>
            decide (cr.source ∈ events.map (fun e => e.source)) &&
              decide (cr.render_group ∈ mediums.map (fun md => md.render_group)))))
        events from rfl]
    refine load_fetched_all_none _ _ events (fun e he => ?_)
    exact lookupA_merge_none _ e.source
      (filtered_no_source crdb events mediums e (hall e he))

/-- Claim C9: the scanner is a pure, deterministic function of the tree and
the key: its state-passing embedding returns the tree unchanged, and
re-running it on the returned tree yields the identical sequence. -/
theorem claim_scanner_pure (d : Value) (key : String) :
    dict_findT d key = (dict_find d key, d) ∧
      (dict_findT (dict_findT d key).2 key).1 = (dict_findT d key).1 := by
  refine ⟨dict_findT_pure d key, ?_⟩
  rw [dict_findT_pure d key, dict_findT_pure d key]

/-- Claim C10: a boolean element at a matched key passes the integer filter
(`isinstance(v, int)` is true for Python bools) and is collected as an
identifier for the hinted model — `true` as 1 and `false` as 0. -/
theorem claim_booleans_collected_as_ids (events : List Event)
    (chps : List (String × List (String × Hints))) (e : Event)
    (kh : String × Hints) (dv : Value × Value) (b : Bool)
    (he : e ∈ events) (hkh : kh ∈ (lookupA chps e.source).getD [])
    (hdv : dv ∈ dict_find e.context kh.1) (hb : Value.bool b ∈ wrapList dv.2) :
    (if b then (1 : Int) else 0) ∈ collectedIds events chps (modelOf kh.2) :=
  (mem_collectedIds events chps (modelOf kh.2) (if b then 1 else 0)).mpr
    ⟨e, he, kh, hkh, rfl, dv, hdv,
      List.mem_filterMap.mpr ⟨Value.bool b, hb, rfl⟩⟩

/-- Claim C10 (witness): the event `{source: "feed", context: {"user_ids":
[true]}}` with the feed hint collects identifier 1 for auth.user. -/
theorem claim_booleans_collected_as_ids_witness :
    (1 : Int) ∈ collectedIds [boolIdEvent] feedChps ("auth", "user") :=
  claim_booleans_collected_as_ids [boolIdEvent] feedChps boolIdEvent
    ("user_ids", userHints) (boolIdEvent.context, Value.list [Value.bool true]) true
    (by simp)
    (by rw [show (lookupA feedChps boolIdEvent.source).getD [] =
          [("user_ids", userHints)] from rfl]
        simp)
    (by rw [show dict_find boolIdEvent.context "user_ids" =
          [(boolIdEvent.context, Value.list [Value.bool true])] from rfl]
        simp)
    (by rw [show wrapList (Value.list [Value.bool true]) = [Value.bool true] from rfl]
        simp)

end ContextLoader
